import Mathlib

/-!
# Verification of the rfdb graph-storage engine

A shallow embedding of the core of the rfdb repository:
* storage records (`NodeRecord`, `EdgeRecord`) from `src/storage/mod.rs`,
* the graph engine state and operations from `src/graph/engine.rs`,
* the generic BFS traversal from `src/graph/traversal.rs`,
* the string table from `src/storage/string_table.rs`,
* the segment writer / reader pair from `src/storage/writer.rs` and
  `src/storage/segment.rs`,
* the Datalog types, parser and evaluator from `src/datalog/`.

Machine integers (`u128`, `u32`, `usize`) are modelled as `Nat`: the embedded
claims use ids and offsets only for equality, ordering and addition, and the
quantities involved stay far below the machine bounds, so no wrap-around
arithmetic is observable.  Rust `String`s are modelled as Lean `String`s in
the engine and Datalog components (which only compare, slice and classify
them) and as raw byte lists (`List Nat`) in the string-table and writer
components, where byte lengths and byte offsets are the subject matter.
`HashMap`s are modelled as insertion-ordered association lists with
overwrite-on-insert, `HashSet`s as duplicate-free lists, and the adjacency
maps (which are only ever read pointwise) as functions to lists.
-/

namespace RFDB

/-- `NodeRecord` (src/storage/mod.rs), generic over the string type.
`id` models the `u128` id; `file_id` and `name_offset` model the `u32`
string-table offsets. -/
structure NodeRecord (σ : Type) where
  id : Nat
  node_type : Option σ
  file_id : Nat
  name_offset : Nat
  version : σ
  exported : Bool
  replaces : Option Nat
  deleted : Bool
  name : Option σ
  file : Option σ
  metadata : Option σ
deriving Repr, DecidableEq

/-- `EdgeRecord` (src/storage/mod.rs), generic over the string type. -/
structure EdgeRecord (σ : Type) where
  src : Nat
  dst : Nat
  edge_type : Option σ
  version : σ
  metadata : Option σ
  deleted : Bool
deriving Repr, DecidableEq

/-- `AttrQuery` (src/storage/mod.rs). -/
structure AttrQuery where
  version : Option String
  node_type : Option String
  file_id : Option Nat
  file : Option String
  exported : Option Bool
  name : Option String
deriving Repr, DecidableEq

/-- Engine-side node record: Rust `NodeRecord` with `String` strings. -/
abbrev NRec := NodeRecord String

/-- Engine-side edge record: Rust `EdgeRecord` with `String` strings. -/
abbrev ERec := EdgeRecord String

/-- `Delta` (src/storage/delta.rs): one operation of the delta log. -/
inductive Delta where
  | addNode (node : NRec)
  | deleteNode (id : Nat)
  | addEdge (edge : ERec)
  | deleteEdge (src : Nat) (dst : Nat) (edge_type : String)
  | updateNodeVersion (id : Nat) (version : String)
deriving Repr, DecidableEq

/-- Lookup in an association list modelling `HashMap<u128, NodeRecord>`. -/
def mapLookup (m : List (Nat × NRec)) (k : Nat) : Option NRec :=
  (m.find? (fun p => p.1 == k)).map Prod.snd

/-- `HashMap::insert`: overwrite the entry if the key is present, otherwise
append.  The position of the entry is unobservable through `mapLookup`. -/
def mapInsert (m : List (Nat × NRec)) (k : Nat) (v : NRec) : List (Nat × NRec) :=
  match m with
  | [] => [(k, v)]
  | (k', v') :: rest =>
      if k' == k then (k, v) :: rest else (k', v') :: mapInsert rest k v

/-- `HashMap::get_mut` followed by a field update: modify the entry for `k`
in place if present, otherwise leave the map unchanged. -/
def mapModify (m : List (Nat × NRec)) (k : Nat) (f : NRec → NRec) : List (Nat × NRec) :=
  match m with
  | [] => []
  | (k', v') :: rest =>
      if k' == k then (k', f v') :: rest else (k', v') :: mapModify rest k f

/-- `HashSet::insert` on a duplicate-free list. -/
def setInsert (s : List Nat) (x : Nat) : List Nat :=
  if s.contains x then s else x :: s

/-- Append one index to the entry of `k` in an adjacency map
(`HashMap::entry(k).or_insert_with(Vec::new).push(idx)`). -/
def adjPush (f : Nat → List Nat) (k : Nat) (idx : Nat) : Nat → List Nat :=
  fun a => if a = k then f a ++ [idx] else f a

/-- `GraphEngine` (src/graph/engine.rs).  The two memory-mapped segments are
modelled as the lists of rows their readers expose (`None` segments behave
exactly like empty ones in every operation, so the `Option` wrapper is
dropped).  `metaNodeCount` / `metaEdgeCount` model the counts stored in
`metadata.json`; its wall-clock timestamps are not modelled. -/
structure GraphEngine where
  segNodes : List NRec
  segEdges : List ERec
  deltaLog : List Delta
  deltaNodes : List (Nat × NRec)
  deltaEdges : List ERec
  adjacency : Nat → List Nat
  reverseAdjacency : Nat → List Nat
  metaNodeCount : Nat
  metaEdgeCount : Nat
  opsSinceFlush : Nat
  deletedSegmentIds : List Nat

/-- `GraphEngine::create`: a fresh, fully empty engine. -/
def engineCreate : GraphEngine where
  segNodes := []
  segEdges := []
  deltaLog := []
  deltaNodes := []
  deltaEdges := []
  adjacency := fun _ => []
  reverseAdjacency := fun _ => []
  metaNodeCount := 0
  metaEdgeCount := 0
  opsSinceFlush := 0
  deletedSegmentIds := []

/-- `GraphEngine::apply_delta` (engine.rs lines 226-276). -/
def applyDelta (e : GraphEngine) (d : Delta) : GraphEngine :=
  match d with
  | .addNode node =>
      { e with deltaNodes := mapInsert e.deltaNodes node.id node }
  | .deleteNode id =>
      if (mapLookup e.deltaNodes id).isSome then
        { e with deltaNodes := mapModify e.deltaNodes id (fun n => { n with deleted := true }) }
      else
        { e with deletedSegmentIds := setInsert e.deletedSegmentIds id }
  | .addEdge edge =>
      let edgeIdx := e.deltaEdges.length
      let globalIdx := edgeIdx + e.segEdges.length
      { e with
        deltaEdges := e.deltaEdges ++ [edge]
        adjacency := adjPush e.adjacency edge.src globalIdx
        reverseAdjacency := adjPush e.reverseAdjacency edge.dst globalIdx }
  | .deleteEdge src dst ty =>
      { e with
        deltaEdges := e.deltaEdges.map (fun ed =>
          if ed.src == src && ed.dst == dst && ed.edge_type == some ty then
            { ed with deleted := true }
          else ed) }
  | .updateNodeVersion id version =>
      { e with deltaNodes := mapModify e.deltaNodes id (fun n => { n with version := version }) }

/-- `NodesSegment::find_index`: linear scan, first match. -/
def segFindIndex (rows : List NRec) (id : Nat) : Option Nat :=
  rows.findIdx? (fun r => r.id == id)

/-- The `NodeRecord` that `get_node_internal` reconstructs from a segment
row (engine.rs lines 298-311): every reader-exposed field is copied,
`replaces` is reset to `None` (it is not persisted) and `deleted` to
`false` (the row was just checked to be live). -/
def reconstructSegNode (row : NRec) : NRec where
  id := row.id
  node_type := row.node_type
  file_id := row.file_id
  name_offset := row.name_offset
  version := row.version
  exported := row.exported
  replaces := none
  deleted := false
  name := row.name
  file := row.file
  metadata := row.metadata

/-- `GraphEngine::get_node_internal` (engine.rs lines 279-317). -/
def getNode (e : GraphEngine) (id : Nat) : Option NRec :=
  match mapLookup e.deltaNodes id with
  | some node => if !node.deleted then some node else none
  | none =>
      if e.deletedSegmentIds.contains id then none
      else
        match segFindIndex e.segNodes id with
        | some idx =>
            match e.segNodes[idx]? with
            | some row => if !row.deleted then some (reconstructSegNode row) else none
            | none => none
        | none => none

/-- `GraphEngine::node_exists`. -/
def nodeExists (e : GraphEngine) (id : Nat) : Bool :=
  (getNode e id).isSome

/-- Edge-type filter used by `neighbors` (engine.rs lines 812-813 and
825-826): an empty filter admits every edge; otherwise the edge type must
be present and a member of the filter. -/
def edgeTypeMatches (edgeTypes : List String) (ty : Option String) : Bool :=
  edgeTypes.isEmpty ||
    (match ty with
     | some et => edgeTypes.contains et
     | none => false)

/-- `GraphEngine::neighbors` (engine.rs lines 800-834): segment edges via
the adjacency map (only indices below the segment edge count), then a full
scan of the delta edges. -/
def neighbors (e : GraphEngine) (id : Nat) (edgeTypes : List String) : List Nat :=
  let segPart := (e.adjacency id).filterMap (fun idx =>
    if idx < e.segEdges.length then
      match e.segEdges[idx]? with
      | some ed =>
          if !ed.deleted && edgeTypeMatches edgeTypes ed.edge_type then some ed.dst else none
      | none => none
    else none)
  let deltaPart := e.deltaEdges.filterMap (fun ed =>
    if ed.src == id && !ed.deleted then
      if edgeTypeMatches edgeTypes ed.edge_type then some ed.dst else none
    else none)
  segPart ++ deltaPart

/-- `GraphStore::add_nodes` (engine.rs lines 574-582): per node, push an
`AddNode` delta and apply it; then bump the operation counter.
`maybe_auto_flush` is a no-op in the model: the operation-count trigger is
disabled (`usize::MAX`) and the memory probe is environmental, best-effort
behaviour outside the state machine. -/
def addNodes (e : GraphEngine) (nodes : List NRec) : GraphEngine :=
  let e' := nodes.foldl (fun acc node =>
    applyDelta { acc with deltaLog := acc.deltaLog ++ [Delta.addNode node] } (.addNode node)) e
  { e' with opsSinceFlush := e'.opsSinceFlush + nodes.length }

/-- `GraphStore::add_edges` (engine.rs lines 771-792): with validation on,
edges whose endpoints do not both exist are skipped; accepted edges are
logged and applied, and the counter grows by the number accepted. -/
def addEdges (e : GraphEngine) (edges : List ERec) (skipValidation : Bool) : GraphEngine :=
  let step := fun (acc : GraphEngine × Nat) (edge : ERec) =>
    if !skipValidation && !(nodeExists acc.1 edge.src && nodeExists acc.1 edge.dst) then
      acc
    else
      (applyDelta { acc.1 with deltaLog := acc.1.deltaLog ++ [Delta.addEdge edge] } (.addEdge edge),
       acc.2 + 1)
  let r := edges.foldl step (e, 0)
  { r.1 with opsSinceFlush := r.1.opsSinceFlush + r.2 }

/-- `GraphStore::delete_node` (engine.rs lines 584-587). -/
def deleteNode (e : GraphEngine) (id : Nat) : GraphEngine :=
  applyDelta { e with deltaLog := e.deltaLog ++ [Delta.deleteNode id] } (.deleteNode id)

/-- `GraphStore::delete_edge` (engine.rs lines 794-798). -/
def deleteEdge (e : GraphEngine) (src dst : Nat) (ty : String) : GraphEngine :=
  applyDelta { e with deltaLog := e.deltaLog ++ [Delta.deleteEdge src dst ty] }
    (.deleteEdge src dst ty)

/-- The node list that `flush` gathers (engine.rs lines 851-913): live
segment rows whose id is not in `deleted_segment_ids`, re-read through the
segment accessors with `file_id`/`name_offset` reset (recomputed by the
writer), followed by the live delta nodes. -/
def flushCollectNodes (e : GraphEngine) : List NRec :=
  let fromSeg := e.segNodes.filterMap (fun row =>
    if !row.deleted then
      if e.deletedSegmentIds.contains row.id then none
      else some { row with file_id := 0, name_offset := 0, replaces := none, deleted := false }
    else none)
  fromSeg ++ ((e.deltaNodes.map Prod.snd).filter (fun n => !n.deleted))

/-- The edge list that `flush` gathers (engine.rs lines 916-946): live
segment edges re-read through the reader (version is not persisted and
comes back as "main"), then live delta edges. -/
def flushCollectEdges (e : GraphEngine) : List ERec :=
  let fromSeg := (e.segEdges.filter (fun ed => !ed.deleted)).map (fun ed =>
    { src := ed.src, dst := ed.dst, edge_type := ed.edge_type,
      version := "main", metadata := ed.metadata, deleted := false : ERec })
  fromSeg ++ e.deltaEdges.filter (fun ed => !ed.deleted)

/-- The adjacency map rebuilt after a flush (engine.rs lines 984-998): the
loop pushes indices in increasing order, so the entry of `src` is exactly
the increasing list of indices of live edges with that source. -/
def buildAdjacency (edges : List ERec) : Nat → List Nat :=
  fun src => (List.range edges.length).filter (fun idx =>
    match edges[idx]? with
    | some ed => !ed.deleted && ed.src == src
    | none => false)

/-- The reverse adjacency map rebuilt after a flush, symmetric on `dst`. -/
def buildReverseAdjacency (edges : List ERec) : Nat → List Nat :=
  fun dst => (List.range edges.length).filter (fun idx =>
    match edges[idx]? with
    | some ed => !ed.deleted && ed.dst == dst
    | none => false)

/-- `GraphStore::flush` (engine.rs lines 842-1006).  The returned flag
records whether the segment files were rewritten; with an empty delta log
the function returns `Ok(())` before touching any state.  Disk writes are
modelled by installing the collected lists as the new segments, which is
what reopening the freshly written files exposes (the writer/reader pair is
studied separately in the storage section below). -/
def flush (e : GraphEngine) : GraphEngine × Bool :=
  if e.deltaLog.isEmpty then (e, false)
  else
    let allNodes := flushCollectNodes e
    let allEdges := flushCollectEdges e
    ({ segNodes := allNodes
       segEdges := allEdges
       deltaLog := []
       deltaNodes := []
       deltaEdges := []
       adjacency := buildAdjacency allEdges
       reverseAdjacency := buildReverseAdjacency allEdges
       metaNodeCount := allNodes.length
       metaEdgeCount := allEdges.length
       opsSinceFlush := 0
       deletedSegmentIds := [] }, true)

/-- `GraphStore::compact` (engine.rs lines 1008-1012): flush. -/
def compact (e : GraphEngine) : GraphEngine × Bool :=
  flush e

/-- The public mutating operations quantified over by the operational
claims. -/
inductive Op where
  | addNodes (nodes : List NRec)
  | addEdges (edges : List ERec) (skipValidation : Bool)
  | deleteNode (id : Nat)
  | deleteEdge (src : Nat) (dst : Nat) (ty : String)
  | flush

/-- Apply one public operation. -/
def applyOp (e : GraphEngine) (op : Op) : GraphEngine :=
  match op with
  | .addNodes nodes => addNodes e nodes
  | .addEdges edges skip => addEdges e edges skip
  | .deleteNode id => deleteNode e id
  | .deleteEdge src dst ty => deleteEdge e src dst ty
  | .flush => (flush e).1

/-- Run a sequence of public operations from a fresh engine. -/
def runOps (ops : List Op) : GraphEngine :=
  ops.foldl applyOp engineCreate

/-!
## Traversal (src/graph/traversal.rs)

The Rust `bfs` loop processes the queue level by level: the inner
`for _ in 0..level_size` loop is `processLevel`, which pops every element of
the current queue, skips already-visited nodes, records first visits in
output order and enqueues the not-yet-visited neighbors of each freshly
visited node.  The outer `while !queue.is_empty() && depth <= max_depth`
loop is `bfsGo`, which runs at most `max_depth + 1` levels.
-/

/-- One level of the Rust `bfs` loop.  Returns the visited set after the
level, the nodes output during the level (in pop order), and the queue for
the next level (neighbors in enqueue order).  The neighbor filter uses the
visited set as it stands when the node is processed, exactly as the
`!visited.contains(&neighbor)` check does. -/
def processLevel (next : Nat → List Nat) : List Nat → List Nat → List Nat × List Nat × List Nat
  | visited, [] => (visited, [], [])
  | visited, n :: rest =>
      if visited.contains n then processLevel next visited rest
      else
        let visited' := n :: visited
        let nbrs := (next n).filter (fun m => !visited'.contains m)
        let r := processLevel next visited' rest
        (r.1, n :: r.2.1, nbrs ++ r.2.2)

/-- The outer `bfs` loop; the fuel counts the levels still allowed by the
`depth <= max_depth` test. -/
def bfsGo (next : Nat → List Nat) : Nat → List Nat → List Nat → List Nat
  | 0, _, _ => []
  | fuel + 1, visited, queue =>
      if queue.isEmpty then []
      else
        let r := processLevel next visited queue
        r.2.1 ++ bfsGo next fuel r.1 r.2.2

/-- `traversal::bfs` (traversal.rs lines 6-43). -/
def bfs (start : List Nat) (maxDepth : Nat) (next : Nat → List Nat) : List Nat :=
  bfsGo next (maxDepth + 1) [] start

/-- `GraphStore::bfs` (engine.rs lines 836-840): traversal BFS over the
engine's `neighbors` function. -/
def engineBfs (e : GraphEngine) (start : List Nat) (maxDepth : Nat)
    (edgeTypes : List String) : List Nat :=
  bfs start maxDepth (fun id => neighbors e id edgeTypes)

/-- Specification-side reachability: `reachSet next start d` is the set of
nodes reachable from some start node by a path of at most `d` edges. -/
def reachSet (next : Nat → List Nat) (start : List Nat) : Nat → Set Nat
  | 0 => { u | u ∈ start }
  | d + 1 => reachSet next start d ∪ { u | ∃ v ∈ reachSet next start d, u ∈ next v }

/-- Specification-side paths: `stepPath next a b k` holds when there is a
walk of exactly `k` edges from `a` to `b` along `next`. -/
def stepPath (next : Nat → List Nat) : Nat → Nat → Nat → Prop
  | a, b, 0 => a = b
  | a, b, k + 1 => ∃ c ∈ next a, stepPath next c b k

/-!
## Engine read API used by the Datalog evaluator (src/graph/engine.rs)
-/

/-- Rust `str::trim_end_matches('*')`: drop every trailing star. -/
def stripStars (s : String) : String :=
  String.mk ((s.data.reverse.dropWhile (fun c => c == '*')).reverse)

/-- Rust `str::ends_with('*')`. -/
def endsWithStar (s : String) : Bool :=
  s.data.getLast? == some '*'

/-- The `(type_prefix, is_wildcard)` pair computed at the top of
`find_by_attr` (engine.rs lines 647-655). -/
def typeFilterOf (q : AttrQuery) : Option String × Bool :=
  match q.node_type with
  | some t => if endsWithStar t then (some (stripStars t), true) else (some t, false)
  | none => (none, false)

/-- The per-node type test of `find_by_attr` (wildcard = prefix match). -/
def typeMatchesB (tp : Option String × Bool) (nt : Option String) : Bool :=
  match tp with
  | (some pre, true) =>
      match nt with
      | some t => pre.data.isPrefixOf t.data
      | none => false
  | (some exact, false) =>
      match nt with
      | some t => t == exact
      | none => false
  | (none, _) => true

/-- `GraphStore::find_by_attr` (engine.rs lines 642-763): scan the live
delta nodes, then the segment rows that are neither shadowed by the delta
nor in `deleted_segment_ids`; all predicates AND together. -/
def findByAttr (e : GraphEngine) (q : AttrQuery) : List Nat :=
  let tp := typeFilterOf q
  let deltaPart := e.deltaNodes.filterMap (fun p =>
    let node := p.2
    if node.deleted then none
    else
      let versionMatch := match q.version with | some v => node.version == v | none => true
      let typeMatch := typeMatchesB tp node.node_type
      let fileIdMatch := match q.file_id with | some f => node.file_id == f | none => true
      let filePathMatch := match q.file with | some f => node.file == some f | none => true
      let exportedMatch := match q.exported with | some x => node.exported == x | none => true
      let nameMatch := match q.name with | some nm => node.name == some nm | none => true
      if versionMatch && typeMatch && fileIdMatch && filePathMatch && exportedMatch && nameMatch
      then some p.1 else none)
  let segPart := e.segNodes.filterMap (fun row =>
    if row.deleted then none
    else if (mapLookup e.deltaNodes row.id).isSome then none
    else if e.deletedSegmentIds.contains row.id then none
    else
      let typeMatch := typeMatchesB tp row.node_type
      let fileIdMatch := match q.file_id with | some f => row.file_id == f | none => true
      let filePathMatch := match q.file with | some f => row.file == some f | none => true
      let nameMatch := match q.name with | some nm => row.name == some nm | none => true
      let versionMatch := match q.version with | some v => row.version == v | none => true
      let exportedMatch := match q.exported with | some x => row.exported == x | none => true
      if typeMatch && fileIdMatch && filePathMatch && nameMatch && versionMatch && exportedMatch
      then some row.id else none)
  deltaPart ++ segPart

/-- An `AttrQuery` with every field unset. -/
def emptyAttrQuery : AttrQuery where
  version := none
  node_type := none
  file_id := none
  file := none
  exported := none
  name := none

/-- `GraphStore::find_by_type` (engine.rs lines 765-769). -/
def findByType (e : GraphEngine) (t : String) : List Nat :=
  findByAttr e { emptyAttrQuery with node_type := some t }

/-- The distinct node-type keys of `count_nodes_by_type(None)`
(engine.rs lines 1205-1266), in first-seen order: live delta nodes first,
then segment rows whose id was not already counted from the delta. -/
def nodeTypeKeys (e : GraphEngine) : List String :=
  let deltaTypes := e.deltaNodes.filterMap (fun p =>
    if p.2.deleted then none else some (p.2.node_type.getD "UNKNOWN"))
  let liveDeltaId := fun id => match mapLookup e.deltaNodes id with
    | some n => !n.deleted
    | none => false
  let segTypes := e.segNodes.filterMap (fun row =>
    if row.deleted then none
    else if liveDeltaId row.id then none
    else some (row.node_type.getD "UNKNOWN"))
  (deltaTypes ++ segTypes).dedup

/-- The optional edge-type filter test of `get_outgoing_edges` and
`get_incoming_edges`: `None` admits everything, `Some types` requires a
present type that is a member. -/
def optTypeMatches (types : Option (List String)) (ty : Option String) : Bool :=
  match types with
  | none => true
  | some ts =>
      match ty with
      | some et => ts.contains et
      | none => false

/-- `GraphStore::get_outgoing_edges` (engine.rs lines 1024-1086): live
delta edges with the given source first, then segment edges reached through
the adjacency map (delta indices fall outside the segment and are skipped
by the failing `get_src` lookup). -/
def getOutgoingEdges (e : GraphEngine) (nodeId : Nat) (types : Option (List String)) : List ERec :=
  let deltaPart := e.deltaEdges.filterMap (fun ed =>
    if ed.deleted || ed.src != nodeId then none
    else if optTypeMatches types ed.edge_type then some ed else none)
  let segPart := (e.adjacency nodeId).filterMap (fun idx =>
    match e.segEdges[idx]? with
    | some ed =>
        if ed.deleted then none
        else if optTypeMatches types ed.edge_type then
          some { src := ed.src, dst := ed.dst, edge_type := ed.edge_type,
                 version := "main", metadata := ed.metadata, deleted := false : ERec }
        else none
    | none => none)
  deltaPart ++ segPart

/-- `GraphStore::get_incoming_edges` (engine.rs lines 1091-1152): walk the
reverse-adjacency entry, reading segment edges for indices below the
segment count and delta edges above it. -/
def getIncomingEdges (e : GraphEngine) (nodeId : Nat) (types : Option (List String)) : List ERec :=
  (e.reverseAdjacency nodeId).filterMap (fun idx =>
    if idx < e.segEdges.length then
      match e.segEdges[idx]? with
      | some ed =>
          if ed.deleted then none
          else if optTypeMatches types ed.edge_type then
            some { src := ed.src, dst := ed.dst, edge_type := ed.edge_type,
                   version := "main", metadata := ed.metadata, deleted := false : ERec }
          else none
      | none => none
    else
      match e.deltaEdges[idx - e.segEdges.length]? with
      | some ed =>
          if ed.deleted || ed.dst != nodeId then none
          else if optTypeMatches types ed.edge_type then some ed else none
      | none => none)

/-!
## Datalog types (src/datalog/types.rs) and evaluator (src/datalog/eval.rs)
-/

/-- `Term` (types.rs): variable, constant or wildcard. -/
inductive Term where
  | var (name : String)
  | const (value : String)
  | wildcard
deriving Repr, DecidableEq

/-- `Atom` (types.rs): a predicate applied to terms. -/
structure Atom where
  predicate : String
  args : List Term
deriving Repr, DecidableEq

/-- `Literal` (types.rs): positive or negated atom. -/
inductive Literal where
  | positive (atom : Atom)
  | negative (atom : Atom)
deriving Repr, DecidableEq

/-- `Rule` (types.rs): `head :- body.`; a fact has an empty body. -/
structure Rule where
  head : Atom
  body : List Literal
deriving Repr, DecidableEq

/-- Rust `str::parse::<u128>` on the strings the engine deals in: all
decimal digits, non-empty, value below `2^128`.  (Rust additionally accepts
a leading `+`, which no claim exercises.) -/
def parseU128 (s : String) : Option Nat :=
  if s.data.isEmpty then none
  else if s.data.all Char.isDigit then
    let n := s.data.foldl (fun acc c => acc * 10 + (c.toNat - 48)) 0
    if n < 2 ^ 128 then some n else none
  else none

/-- `Value` (eval.rs): a binding value, id or string. -/
inductive Value where
  | id (n : Nat)
  | str (s : String)
deriving Repr, DecidableEq

/-- `Value::as_str`. -/
def Value.asStr : Value → String
  | .id n => toString n
  | .str s => s

/-- `Bindings` (eval.rs): a map from variable names to values, modelled as
an insertion-ordered association list with overwrite-on-insert. -/
structure Bindings where
  map : List (String × Value)
deriving Repr, DecidableEq

/-- `Bindings::new`. -/
def Bindings.empty : Bindings := ⟨[]⟩

/-- `Bindings::get`. -/
def Bindings.get (b : Bindings) (v : String) : Option Value :=
  (b.map.find? (fun p => p.1 == v)).map Prod.snd

/-- Insert-or-overwrite on the underlying association list. -/
def bMapSet (m : List (String × Value)) (k : String) (v : Value) : List (String × Value) :=
  match m with
  | [] => [(k, v)]
  | (k', v') :: rest =>
      if k' == k then (k, v) :: rest else (k', v') :: bMapSet rest k v

/-- `Bindings::set`. -/
def Bindings.set (b : Bindings) (k : String) (v : Value) : Bindings :=
  ⟨bMapSet b.map k v⟩

/-- A singleton binding. -/
def Bindings.single (k : String) (v : Value) : Bindings :=
  Bindings.empty.set k v

/-- The loop body of `Bindings::extend`: add the entries of `other` one by
one, failing on the first conflicting value. -/
def extendGo (result : Bindings) : List (String × Value) → Option Bindings
  | [] => some result
  | (k, v) :: rest =>
      match result.get k with
      | some existing => if existing == v then extendGo result rest else none
      | none => extendGo (result.set k v) rest

/-- `Bindings::extend` (eval.rs lines 73-85). -/
def Bindings.extend (b other : Bindings) : Option Bindings :=
  extendGo b other.map

/-- `Evaluator` (eval.rs): engine reference plus the rule map
(`HashMap<String, Vec<Rule>>` as an association list).  `jsonAttr` stands
for the serde_json field extraction used by the metadata branch of
`attr/3` (external crate behaviour, uninterpreted here: no claim touches
it): given the metadata document and a field name it returns the
stringified field value, if any. -/
structure Evaluator where
  engine : GraphEngine
  rules : List (String × List Rule)
  jsonAttr : String → String → Option String

/-- Lookup a predicate's rules (`self.rules.get(...)`). -/
def rulesLookup (rs : List (String × List Rule)) (pred : String) : Option (List Rule) :=
  (rs.find? (fun p => p.1 == pred)).map Prod.snd

/-- `Evaluator::add_rule`: push onto the predicate's entry, creating it if
absent. -/
def rulesInsert (rs : List (String × List Rule)) (r : Rule) : List (String × List Rule) :=
  match rs with
  | [] => [(r.head.predicate, [r])]
  | (p, l) :: rest =>
      if p == r.head.predicate then (p, l ++ [r]) :: rest else (p, l) :: rulesInsert rest r

/-- `Evaluator::eval_node` (eval.rs lines 142-206). -/
def evalNode (ev : Evaluator) (atom : Atom) : List Bindings :=
  if atom.args.length < 2 then []
  else
    match atom.args[0]?, atom.args[1]? with
    | some (Term.var v), some (Term.const ty) =>
        (findByType ev.engine ty).map (fun id => Bindings.single v (.id id))
    | some (Term.const idStr), some (Term.var v) =>
        (match parseU128 idStr with
         | some id =>
             match getNode ev.engine id with
             | some node =>
                 match node.node_type with
                 | some ty => [Bindings.single v (.str ty)]
                 | none => []
             | none => []
         | none => [])
    | some (Term.const idStr), some (Term.const ty) =>
        (match parseU128 idStr with
         | some id =>
             match getNode ev.engine id with
             | some node => if node.node_type == some ty then [Bindings.empty] else []
             | none => []
         | none => [])
    | some (Term.var idVar), some (Term.var tyVar) =>
        (nodeTypeKeys ev.engine).foldl (fun acc ty =>
          acc ++ (findByType ev.engine ty).map (fun id =>
            (Bindings.single idVar (.id id)).set tyVar (.str ty))) []
    | _, _ => []

/-- The shared edge-result post-processing of `eval_edge` /
`eval_incoming`: bind the node term (dst for edge, src for incoming),
filter constants by parsed id, bind the type variable if any. -/
def bindEdgeResult (nodeTerm : Term) (typeTerm : Option Term) (nodeVal : Nat)
    (ty : Option String) : Option Bindings :=
  let b0 : Option Bindings :=
    match nodeTerm with
    | .var v => some (Bindings.single v (.id nodeVal))
    | .const s => if parseU128 s == some nodeVal then some Bindings.empty else none
    | .wildcard => some Bindings.empty
  match b0 with
  | none => none
  | some b =>
      match typeTerm with
      | some (Term.var v) =>
          match ty with
          | some et => some (b.set v (.str et))
          | none => some b
      | _ => some b

/-- The edge-type filter argument passed to the engine by `eval_edge` /
`eval_incoming`: `Some` only when the third argument exists and is a
constant. -/
def edgeTypeArg (typeTerm : Option Term) : Option (List String) :=
  match typeTerm with
  | some (Term.const s) => some [s]
  | _ => none

/-- `Evaluator::eval_edge` (eval.rs lines 209-271). -/
def evalEdge (ev : Evaluator) (atom : Atom) : List Bindings :=
  if atom.args.length < 2 then []
  else
    match atom.args[0]? with
    | some (Term.const srcStr) =>
        (match parseU128 srcStr with
         | some srcId =>
             let typeTerm := atom.args[2]?
             let edges := getOutgoingEdges ev.engine srcId (edgeTypeArg typeTerm)
             edges.filterMap (fun e =>
               match atom.args[1]? with
               | some dstTerm => bindEdgeResult dstTerm typeTerm e.dst e.edge_type
               | none => none)
         | none => [])
    | _ => []

/-- `Evaluator::eval_incoming` (eval.rs lines 274-335). -/
def evalIncoming (ev : Evaluator) (atom : Atom) : List Bindings :=
  if atom.args.length < 2 then []
  else
    match atom.args[0]? with
    | some (Term.const dstStr) =>
        (match parseU128 dstStr with
         | some dstId =>
             let typeTerm := atom.args[2]?
             let edges := getIncomingEdges ev.engine dstId (edgeTypeArg typeTerm)
             edges.filterMap (fun e =>
               match atom.args[1]? with
               | some srcTerm => bindEdgeResult srcTerm typeTerm e.src e.edge_type
               | none => none)
         | none => [])
    | _ => []

/-- `Evaluator::eval_attr` (eval.rs lines 341-423).  The metadata branch
delegates to the uninterpreted `jsonAttr`. -/
def evalAttr (ev : Evaluator) (atom : Atom) : List Bindings :=
  if atom.args.length < 3 then []
  else
    match atom.args[0]? with
    | some (Term.const idStr) =>
        (match parseU128 idStr with
         | some nodeId =>
             match getNode ev.engine nodeId with
             | some node =>
                 (match atom.args[1]? with
                  | some (Term.const attrName) =>
                      let attrValue : Option String :=
                        if attrName == "name" then node.name
                        else if attrName == "file" then node.file
                        else if attrName == "type" then node.node_type
                        else match node.metadata with
                          | some m => ev.jsonAttr m attrName
                          | none => none
                      (match attrValue with
                       | none => []
                       | some v =>
                           match atom.args[2]? with
                           | some (Term.var var) => [Bindings.single var (.str v)]
                           | some (Term.const expected) =>
                               if v == expected then [Bindings.empty] else []
                           | some Term.wildcard => [Bindings.empty]
                           | none => [])
                  | _ => [])
             | none => []
         | none => [])
    | _ => []

/-- `Evaluator::eval_path` (eval.rs lines 426-493): BFS with all edge
types and `max_depth = 100`; only the bound-source modes are supported. -/
def evalPath (ev : Evaluator) (atom : Atom) : List Bindings :=
  if atom.args.length < 2 then []
  else
    match atom.args[0]?, atom.args[1]? with
    | some (Term.const srcStr), some (Term.const dstStr) =>
        (match parseU128 srcStr, parseU128 dstStr with
         | some srcId, some dstId =>
             let reachable := engineBfs ev.engine [srcId] 100 []
             if reachable.contains dstId then [Bindings.empty] else []
         | _, _ => [])
    | some (Term.const srcStr), some (Term.var v) =>
        (match parseU128 srcStr with
         | some srcId =>
             let reachable := engineBfs ev.engine [srcId] 100 []
             (reachable.filter (fun id => id != srcId)).map (fun id => Bindings.single v (.id id))
         | none => [])
    | some (Term.const srcStr), some Term.wildcard =>
        (match parseU128 srcStr with
         | some srcId =>
             let reachable := engineBfs ev.engine [srcId] 100 []
             if reachable.any (fun id => id != srcId) then [Bindings.empty] else []
         | none => [])
    | _, _ => []

/-- `Evaluator::eval_neq` (eval.rs lines 497-523). -/
def evalNeq (atom : Atom) : List Bindings :=
  if atom.args.length < 2 then []
  else
    match atom.args[0]?, atom.args[1]? with
    | some (Term.const l), some (Term.const r) => if l != r then [Bindings.empty] else []
    | _, _ => []

/-- `Evaluator::eval_starts_with` (eval.rs lines 526-550). -/
def evalStartsWith (atom : Atom) : List Bindings :=
  if atom.args.length < 2 then []
  else
    match atom.args[0]?, atom.args[1]? with
    | some (Term.const v), some (Term.const p) =>
        if p.data.isPrefixOf v.data then [Bindings.empty] else []
    | _, _ => []

/-- `Evaluator::eval_not_starts_with` (eval.rs lines 553-577). -/
def evalNotStartsWith (atom : Atom) : List Bindings :=
  if atom.args.length < 2 then []
  else
    match atom.args[0]?, atom.args[1]? with
    | some (Term.const v), some (Term.const p) =>
        if p.data.isPrefixOf v.data then [] else [Bindings.empty]
    | _, _ => []

/-- `Evaluator::substitute_atom` (eval.rs lines 647-664). -/
def substituteAtom (atom : Atom) (b : Bindings) : Atom where
  predicate := atom.predicate
  args := atom.args.map (fun t =>
    match t with
    | .var v =>
        match b.get v with
        | some value => .const value.asStr
        | none => t
    | _ => t)

/-- The enumerated loop of `project_to_head` over head argument
positions. -/
def projectGo : List Term → List Term → Bindings → Nat → Bindings → Bindings
  | [], _, _, _, result => result
  | t :: rest, queryArgs, b, i, result =>
      let result' :=
        match t with
        | .var v =>
            match b.get v with
            | some value =>
                match queryArgs[i]? with
                | some (Term.var queryVar) => result.set queryVar value
                | _ => result
            | none => result
        | _ => result
      projectGo rest queryArgs b (i + 1) result'

/-- `Evaluator::project_to_head` (eval.rs lines 667-683): walk the head
arguments; for a head variable with a bound value, copy the value to the
query argument at the same position when that argument is a variable.
Nothing else is inspected and the function always succeeds. -/
def projectToHead (rule : Rule) (query : Atom) (b : Bindings) : Option Bindings :=
  some (projectGo rule.head.args query.args b 0 Bindings.empty)

/-- One step of `eval_rule_body`'s literal loop over the current binding
set, parameterized by the atom evaluator (the closure over `eval_atom`).
For a positive literal: evaluate the substituted atom and keep conflict-free
extensions; for a negative literal: keep the bindings unchanged exactly when
the substituted atom has no solutions. -/
def evalLiteralStep (evalA : Atom → List Bindings) (lit : Literal)
    (current : List Bindings) : List Bindings :=
  current.foldl (fun next b =>
    match lit with
    | .positive atom =>
        next ++ (evalA (substituteAtom atom b)).filterMap (fun r => b.extend r)
    | .negative atom =>
        if (evalA (substituteAtom atom b)).isEmpty then next ++ [b] else next) []

/-- `Evaluator::eval_rule_body` (eval.rs lines 604-644), with `eval_atom`
as a parameter.  The early `break` on an empty binding set is dropped: a
fold over an empty set already produces the empty set. -/
def evalRuleBodyWith (evalA : Atom → List Bindings) (rule : Rule) : List Bindings :=
  rule.body.foldl (fun current lit => evalLiteralStep evalA lit current) [Bindings.empty]

/-- `Evaluator::eval_derived` (eval.rs lines 580-601), with `eval_atom` as
a parameter. -/
def evalDerivedWith (evalA : Atom → List Bindings) (ev : Evaluator) (atom : Atom) :
    List Bindings :=
  match rulesLookup ev.rules atom.predicate with
  | none => []
  | some rules =>
      rules.foldl (fun acc rule =>
        acc ++ (evalRuleBodyWith evalA rule).filterMap (fun b => projectToHead rule atom b)) []

/-- `Evaluator::eval_atom` (eval.rs lines 127-139).  The Rust function
recurses unboundedly through user rules; `fuel` bounds that recursion depth
(one unit per entry into a derived predicate) and is chosen large enough in
every theorem for the evaluation to be fuel-independent.  Built-ins consume
no fuel. -/
def evalAtomF (ev : Evaluator) : Nat → Atom → List Bindings
  | 0, _ => []
  | fuel + 1, atom =>
      if atom.predicate == "node" then evalNode ev atom
      else if atom.predicate == "edge" then evalEdge ev atom
      else if atom.predicate == "incoming" then evalIncoming ev atom
      else if atom.predicate == "path" then evalPath ev atom
      else if atom.predicate == "attr" then evalAttr ev atom
      else if atom.predicate == "neq" then evalNeq atom
      else if atom.predicate == "starts_with" then evalStartsWith atom
      else if atom.predicate == "not_starts_with" then evalNotStartsWith atom
      else evalDerivedWith (fun a => evalAtomF ev fuel a) ev atom

/-!
## Datalog term parsing (src/datalog/parser.rs)

The parser state is modelled as the remaining input, a `List Char`
(Rust byte positions and Lean character positions delimit the same
tokens on every input).  The parser classifies characters with Rust's
Unicode classifiers `char::is_uppercase`, `char::is_lowercase`,
`char::is_alphanumeric` and `char::is_whitespace` (parser.rs lines 54,
95, 132, 138, 141); their Unicode property tables live in the Rust core
library, outside this repository, so the four functions are carried as a
`CharClass` parameter, the way serde_json is carried in `Evaluator`.
The classification theorem assumes of them only facts guaranteed by the
Unicode character database (`ccFacts`); concrete runs on ASCII inputs
instantiate the parameter at `asciiCC`, the ASCII restriction on which
the Unicode classifiers agree character for character.  Errors carry no
position in the model. -/

/-- A parse failure (message and byte offset are not modelled). -/
inductive PErr where
  | fail
deriving Repr, DecidableEq

/-- The four character classifiers the parser draws from the Rust core
library: `char::is_uppercase`, `char::is_lowercase`,
`char::is_alphanumeric` and `char::is_whitespace`. -/
structure CharClass where
  isUp : Char → Bool
  isLow : Char → Bool
  isAlnum : Char → Bool
  isWs : Char → Bool

/-- Facts about the Rust classifiers that the classification proof
relies on, all guaranteed by the Unicode character database: no
character is both uppercase and lowercase, and the punctuation `_` and
`"` is neither uppercase nor lowercase. -/
def ccFacts (cc : CharClass) : Prop :=
  (∀ ch, cc.isUp ch = true → cc.isLow ch = false) ∧
  cc.isUp '_' = false ∧ cc.isLow '_' = false ∧ cc.isUp '"' = false

/-- The ASCII restriction of the classifiers: on ASCII characters,
Rust's Unicode classifiers agree with the core ASCII ones, so concrete
runs on ASCII inputs instantiate `CharClass` here. -/
def asciiCC : CharClass where
  isUp := Char.isUpper
  isLow := Char.isLower
  isAlnum := Char.isAlphanum
  isWs := Char.isWhitespace

/-- `Parser::skip_whitespace` (parser.rs lines 51-69): the flag is true
while inside a `%` line comment. -/
def skipWsAux (cc : CharClass) : Bool → List Char → List Char
  | _, [] => []
  | false, c :: rest =>
      if cc.isWs c then skipWsAux cc false rest
      else if c == '%' then skipWsAux cc true rest
      else c :: rest
  | true, c :: rest =>
      if c == '\n' then skipWsAux cc false rest else skipWsAux cc true rest

/-- Whitespace-and-comment skipping from the normal state. -/
def skipWs (cc : CharClass) (cs : List Char) : List Char :=
  skipWsAux cc false cs

/-- The identifier character class of `parse_identifier` (parser.rs line
95): alphanumeric, underscore or colon. -/
def identChar (cc : CharClass) (c : Char) : Bool :=
  cc.isAlnum c || c == '_' || c == ':'

/-- Rust `remaining()[1..].starts_with(|c| c.is_alphanumeric())`: does the
input continue with an alphanumeric character? -/
def nextAlnum (cc : CharClass) : List Char → Bool
  | [] => false
  | c2 :: _ => cc.isAlnum c2

/-- The string-body scan of `parse_string` (parser.rs lines 113-124):
everything up to the next `"`; `none` when the quote never comes. -/
def splitAtQuote : List Char → Option (List Char × List Char)
  | [] => none
  | c :: rest =>
      if c == '"' then some ([], rest)
      else (splitAtQuote rest).map (fun p => (c :: p.1, p.2))

/-- `Parser::parse_term` (parser.rs lines 127-149), returning the term and
the remaining input. -/
def parseTerm (cc : CharClass) (cs : List Char) : Except PErr (Term × List Char) :=
  match skipWs cc cs with
  | [] => .error .fail
  | c :: rest =>
      if c == '_' && !nextAlnum cc rest then
        .ok (.wildcard, rest)
      else if c == '"' then
        match splitAtQuote rest with
        | some (content, rest') => .ok (.const (String.mk content), rest')
        | none => .error .fail
      else if cc.isUp c then
        let ident := (c :: rest).takeWhile (identChar cc)
        .ok (.var (String.mk ident), (c :: rest).dropWhile (identChar cc))
      else if cc.isLow c || c == '_' then
        let ident := (c :: rest).takeWhile (identChar cc)
        .ok (.const (String.mk ident), (c :: rest).dropWhile (identChar cc))
      else .error .fail

/-!
## String table (src/storage/string_table.rs) and segment writer / reader
(src/storage/writer.rs, src/storage/segment.rs)

Strings are raw UTF-8 byte sequences here, modelled as `List Nat`.  The
Rust `get` additionally re-validates the selected slice as UTF-8; every
slice taken in the claims below starts and ends on boundaries of interned
strings, where the check always succeeds, so it is not modelled.
-/

/-- A byte string. -/
abbrev Bytes := List Nat

/-- `StringTable` (string_table.rs): blob, offsets in insertion order, and
the dedup index (`HashMap<String, u32>` as an association list). -/
structure StringTable where
  data : Bytes
  offsets : List Nat
  index : List (Bytes × Nat)
deriving Repr, DecidableEq

/-- The empty string table (`StringTable::new`). -/
def StringTable.new : StringTable where
  data := []
  offsets := []
  index := []

/-- Index lookup (`self.index.get(s)`). -/
def stIndexLookup (index : List (Bytes × Nat)) (s : Bytes) : Option Nat :=
  (index.find? (fun p => p.1 == s)).map Prod.snd

/-- `StringTable::intern` (string_table.rs lines 27-37): return the cached
offset, or append the bytes at offset `data.len()` and record it. -/
def StringTable.intern (t : StringTable) (s : Bytes) : Nat × StringTable :=
  match stIndexLookup t.index s with
  | some o => (o, t)
  | none =>
      let o := t.data.length
      (o, { data := t.data ++ s, offsets := t.offsets ++ [o], index := t.index ++ [(s, o)] })

/-- `StringTable::get` (string_table.rs lines 45-61): the slice from
`offset` to the first offset greater than it in scan order, or to
`data.len()`. -/
def StringTable.get (t : StringTable) (offset : Nat) : Option Bytes :=
  let next := (t.offsets.find? (fun o => decide (offset < o))).getD t.data.length
  if offset ≥ t.data.length ∨ next > t.data.length then none
  else some ((t.data.drop offset).take (next - offset))

/-- Intern a list of strings left to right. -/
def internList (t : StringTable) (ws : List Bytes) : StringTable :=
  ws.foldl (fun acc s => (acc.intern s).2) t

/-- Storage-side node record: Rust `NodeRecord` with byte-list strings. -/
abbrev BNodeRec := NodeRecord Bytes

/-- The string table and the five writer-side dedup maps built by the
first pass of `write_nodes` (writer.rs lines 36-80). -/
structure NodeInternState where
  table : StringTable
  typeMap : List (Bytes × Nat)
  fileMap : List (Bytes × Nat)
  nameMap : List (Bytes × Nat)
  versionMap : List (Bytes × Nat)
  metadataMap : List (Bytes × Nat)
deriving Repr, DecidableEq

/-- One optional-field step of the intern pass: if the value is present
and not yet in its map, intern it and record the offset. -/
def internField (st : StringTable) (m : List (Bytes × Nat)) (v : Option Bytes) :
    StringTable × List (Bytes × Nat) :=
  match v with
  | none => (st, m)
  | some s =>
      match stIndexLookup m s with
      | some _ => (st, m)
      | none =>
          let r := st.intern s
          (r.2, m ++ [(s, r.1)])

/-- The per-node body of the intern pass, in source order: type, file,
name, version (always present), metadata. -/
def internNode (acc : NodeInternState) (n : BNodeRec) : NodeInternState :=
  let r1 := internField acc.table acc.typeMap n.node_type
  let r2 := internField r1.1 acc.fileMap n.file
  let r3 := internField r2.1 acc.nameMap n.name
  let r4 := internField r3.1 acc.versionMap (some n.version)
  let r5 := internField r4.1 acc.metadataMap n.metadata
  { table := r5.1, typeMap := r1.2, fileMap := r2.2, nameMap := r3.2,
    versionMap := r4.2, metadataMap := r5.2 }

/-- The full intern pass of `write_nodes`. -/
def buildNodeInternState (nodes : List BNodeRec) : NodeInternState :=
  nodes.foldl internNode
    { table := StringTable.new, typeMap := [], fileMap := [], nameMap := [],
      versionMap := [], metadataMap := [] }

/-- The nodes segment as the reader exposes it: the column arrays and the
embedded string table.  Byte serialization of the fixed-width columns is
exact (little-endian write, little-endian read at computed offsets), so
writing and reopening is modelled by carrying the columns over. -/
structure NodesSegmentModel where
  ids : List Nat
  typeOffsets : List Nat
  fileIds : List Nat
  nameOffsets : List Nat
  versionOffsets : List Nat
  exported : List Bool
  deleted : List Bool
  metadataOffsets : List Nat
  table : StringTable
deriving Repr, DecidableEq

/-- `SegmentWriter::write_nodes` (writer.rs lines 25-184): the intern pass
followed by the column pass (offsets `+1` for `file_id` and `name_offset`
with 0 as the absent sentinel, raw offsets with `unwrap_or(0)`
elsewhere). -/
def writeNodes (nodes : List BNodeRec) : NodesSegmentModel :=
  let st := buildNodeInternState nodes
  { ids := nodes.map (fun n => n.id)
    typeOffsets := nodes.map (fun n =>
      match n.node_type with
      | some t => (stIndexLookup st.typeMap t).getD 0
      | none => 0)
    fileIds := nodes.map (fun n =>
      match n.file with
      | some f =>
          match stIndexLookup st.fileMap f with
          | some x => x + 1
          | none => 0
      | none => 0)
    nameOffsets := nodes.map (fun n =>
      match n.name with
      | some nm =>
          match stIndexLookup st.nameMap nm with
          | some x => x + 1
          | none => 0
      | none => 0)
    versionOffsets := nodes.map (fun n => (stIndexLookup st.versionMap n.version).getD 0)
    exported := nodes.map (fun n => n.exported)
    deleted := nodes.map (fun n => n.deleted)
    metadataOffsets := nodes.map (fun n =>
      match n.metadata with
      | some m => (stIndexLookup st.metadataMap m).getD 0
      | none => 0)
    table := st.table }

/-- `NodesSegment::get_id` (segment.rs lines 197-203). -/
def segGetId (seg : NodesSegmentModel) (idx : Nat) : Option Nat :=
  seg.ids[idx]?

/-- `NodesSegment::get_type_offset` (segment.rs lines 206-212). -/
def segGetTypeOffset (seg : NodesSegmentModel) (idx : Nat) : Option Nat :=
  seg.typeOffsets[idx]?

/-- `NodesSegment::get_node_type` (segment.rs lines 215-218): the type
offset resolved through the string table, with no absent-sentinel check. -/
def segGetNodeType (seg : NodesSegmentModel) (idx : Nat) : Option Bytes :=
  (segGetTypeOffset seg idx).bind (fun o => seg.table.get o)

/-- `NodesSegment::get_file_id` (segment.rs lines 221-227). -/
def segGetFileId (seg : NodesSegmentModel) (idx : Nat) : Option Nat :=
  seg.fileIds[idx]?

/-- `NodesSegment::get_file_path` (segment.rs lines 265-271): 0 means
absent, otherwise the stored value minus one is the table offset. -/
def segGetFilePath (seg : NodesSegmentModel) (idx : Nat) : Option Bytes :=
  (segGetFileId seg idx).bind (fun fid =>
    if fid = 0 then none else seg.table.get (fid - 1))

/-- `NodesSegment::get_name_offset` (segment.rs lines 230-236). -/
def segGetNameOffset (seg : NodesSegmentModel) (idx : Nat) : Option Nat :=
  seg.nameOffsets[idx]?

/-- `NodesSegment::get_name` (segment.rs lines 275-281). -/
def segGetName (seg : NodesSegmentModel) (idx : Nat) : Option Bytes :=
  (segGetNameOffset seg idx).bind (fun o =>
    if o = 0 then none else seg.table.get (o - 1))

/-- `NodesSegment::get_version_offset` / `get_version` (segment.rs lines
284-296): raw offset, no absent-sentinel check. -/
def segGetVersion (seg : NodesSegmentModel) (idx : Nat) : Option Bytes :=
  seg.versionOffsets[idx]?.bind (fun o => seg.table.get o)

/-- `NodesSegment::get_metadata_offset` / `get_metadata` (segment.rs lines
299-315): 0 means absent, otherwise the raw offset is resolved. -/
def segGetMetadata (seg : NodesSegmentModel) (idx : Nat) : Option Bytes :=
  seg.metadataOffsets[idx]?.bind (fun o =>
    if o = 0 then none else seg.table.get o)

/-- `NodesSegment::get_exported` (segment.rs lines 318-324). -/
def segGetExported (seg : NodesSegmentModel) (idx : Nat) : Option Bool :=
  seg.exported[idx]?

/-- `NodesSegment::is_deleted` (segment.rs lines 239-241): out-of-range
indices read as 0, i.e. not deleted. -/
def segIsDeleted (seg : NodesSegmentModel) (idx : Nat) : Bool :=
  seg.deleted[idx]?.getD false

/-!
## Specification-side definitions used in theorem statements
-/

/-- The boundary that `StringTable::get` computes for `offset`: the first
offset in scan order strictly greater than it, or `data.len()`. -/
def nextBoundary (t : StringTable) (offset : Nat) : Nat :=
  (t.offsets.find? (fun o => decide (offset < o))).getD t.data.length

/-- The adjacency-map invariant that `neighbors` relies on: restricted to
segment indices, the adjacency entry of `id` lists exactly the live segment
edges with source `id`, in index order. -/
def EngineInv (e : GraphEngine) : Prop :=
  ∀ id, (e.adjacency id).filter (fun idx => decide (idx < e.segEdges.length)) =
    (List.range e.segEdges.length).filter (fun idx =>
      match e.segEdges[idx]? with
      | some ed => !ed.deleted && ed.src == id
      | none => false)

/-- The live edges with source `id` in the union of segment and delta. -/
def unionOutDst (e : GraphEngine) (id : Nat) : List Nat :=
  (e.segEdges ++ e.deltaEdges).filterMap (fun ed =>
    if !ed.deleted && ed.src == id then some ed.dst else none)

/-- The set of nodes strictly shallower than level `d`: empty at level 0,
`reachSet (d - 1)` afterwards.  This is the visited set at the start of
level `d` of the BFS. -/
def reachBelow (next : Nat → List Nat) (start : List Nat) : Nat → Set Nat
  | 0 => ∅
  | d + 1 => reachSet next start d

/-- First remaining character is an uppercase letter (per the given
classifiers). -/
def headUpper (cc : CharClass) : List Char → Bool
  | [] => false
  | c :: _ => cc.isUp c

/-- First remaining character is `_` not followed by an alphanumeric:
the wildcard condition of `parse_term`. -/
def headWild (cc : CharClass) : List Char → Bool
  | [] => false
  | c :: rest => c == '_' && !nextAlnum cc rest

/-- First remaining character opens a quoted string. -/
def headQuote : List Char → Bool
  | [] => false
  | c :: _ => c == '"'

/-- First remaining character starts a bare-identifier constant: a
lowercase letter, or `_` followed by an alphanumeric. -/
def headLowerConst (cc : CharClass) : List Char → Bool
  | [] => false
  | c :: rest => cc.isLow c || (c == '_' && nextAlnum cc rest)

/-- The string-table well-formedness invariant: offsets mirror the index,
the blob is the concatenation of the interned strings in insertion order,
each recorded offset is the total length of the strings before it, and the
interned strings are pairwise distinct. -/
def STInv (t : StringTable) : Prop :=
  t.offsets = t.index.map Prod.snd ∧
  t.data = (t.index.map Prod.fst).flatten ∧
  (∀ i s o, t.index[i]? = some (s, o) →
    o = (((t.index.take i).map Prod.fst).map List.length).sum) ∧
  (t.index.map Prod.fst).Nodup

/-- The optional byte string, if present, is nonempty. -/
def neOptB : Option Bytes → Bool
  | none => true
  | some s => !s.isEmpty

/-- Every string field of the record that is present is nonempty. -/
def goodRecB (n : BNodeRec) : Bool :=
  neOptB n.node_type && neOptB n.file && neOptB n.name &&
    !n.version.isEmpty && neOptB n.metadata

/-- Every hit in the dedup map is also a hit in the table index, at the
same offset. -/
def mapSound (tab m : List (Bytes × Nat)) : Prop :=
  ∀ s o, stIndexLookup m s = some o → stIndexLookup tab s = some o

/-- All strings interned in the table are nonempty. -/
def keysNE (t : StringTable) : Prop :=
  ∀ p ∈ t.index, p.1 ≠ ([] : Bytes)

/-- The optional value, if present, has an entry in the dedup map. -/
def presentIn (m : List (Bytes × Nat)) (v : Option Bytes) : Prop :=
  ∀ s, v = some s → ∃ o, stIndexLookup m s = some o

/-- All string fields of the record have entries in their dedup maps. -/
def recPresent (st : NodeInternState) (n : BNodeRec) : Prop :=
  presentIn st.typeMap n.node_type ∧ presentIn st.fileMap n.file ∧
  presentIn st.nameMap n.name ∧ presentIn st.versionMap (some n.version) ∧
  presentIn st.metadataMap n.metadata

/-- The intern-pass invariant: a well-formed table and five sound dedup
maps. -/
def NISInv (st : NodeInternState) : Prop :=
  STInv st.table ∧ mapSound st.table.index st.typeMap ∧
  mapSound st.table.index st.fileMap ∧ mapSound st.table.index st.nameMap ∧
  mapSound st.table.index st.versionMap ∧ mapSound st.table.index st.metadataMap

/-!
## Concrete instances used by witnesses and counterexamples
-/

/-- A plain live node record with id 5. -/
def n5 : NRec where
  id := 5
  node_type := some "FUNCTION"
  file_id := 0
  name_offset := 0
  version := "main"
  exported := false
  replaces := none
  deleted := false
  name := some "f"
  file := none
  metadata := none

/-- Engine holding only `n5` in the delta. -/
def engW : GraphEngine := runOps [Op.addNodes [n5]]

/-- Engine where id 5 was deleted (entering `deleted_segment_ids`) and
then re-added to the delta. -/
def engReAdd : GraphEngine := runOps [Op.deleteNode 5, Op.addNodes [n5]]

/-- Node with id 1. -/
def nA : NRec := { n5 with id := 1 }

/-- Node with id 2. -/
def nB : NRec := { n5 with id := 2 }

/-- A live edge 1 → 2 of type T. -/
def eAB : ERec where
  src := 1
  dst := 2
  edge_type := some "T"
  version := "main"
  metadata := none
  deleted := false

/-- Engine with the edge 1 → 2 inserted twice. -/
def engDup : GraphEngine :=
  runOps [Op.addNodes [nA, nB], Op.addEdges [eAB, eAB] false]

/-- Engine with the edge 1 → 2 inserted twice and then deleted once by
`delete_edge(1, 2, "T")`. -/
def engDupDel : GraphEngine :=
  runOps [Op.addNodes [nA, nB], Op.addEdges [eAB, eAB] false, Op.deleteEdge 1 2 "T"]

/-- An evaluator over the empty engine with no rules. -/
def evEmpty : Evaluator where
  engine := engineCreate
  rules := []
  jsonAttr := fun _ _ => none

/-- The query atom `path("1", "1")`. -/
def pathAtom11 : Atom where
  predicate := "path"
  args := [Term.const "1", Term.const "1"]

/-- Node with id 1 and type T. -/
def nT : NRec := { n5 with id := 1, node_type := some "T" }

/-- Engine holding only `nT`. -/
def engT : GraphEngine := runOps [Op.addNodes [nT]]

/-- The rule `p(X) :- node(X, "T").`. -/
def ruleP : Rule where
  head := { predicate := "p", args := [Term.var "X"] }
  body := [Literal.positive { predicate := "node", args := [Term.var "X", Term.const "T"] }]

/-- Evaluator over `engT` with the single rule `ruleP`. -/
def evP : Evaluator where
  engine := engT
  rules := [("p", [ruleP])]
  jsonAttr := fun _ _ => none

/-- The query atom `p("2")`: constant argument where the rule head has the
variable X. -/
def pAtom2 : Atom where
  predicate := "p"
  args := [Term.const "2"]

/-- The query atom `p(Y)`: variable argument. -/
def pAtomY : Atom where
  predicate := "p"
  args := [Term.var "Y"]

/-- The body solution binding X to node id 1. -/
def bX : Bindings := Bindings.single "X" (Value.id 1)

/-- String table holding the empty string and then the two-byte string
`[7, 8]`, both at offset 0. -/
def tEmptyFirst : StringTable :=
  internList StringTable.new [[], [7, 8]]

/-- String table holding `[1]` and `[2, 3]`. -/
def tTwo : StringTable :=
  internList StringTable.new [[1], [2, 3]]

/-- A node record, byte-string flavour, with no type but with a file path:
the C5 counterexample input. -/
def nNoType : BNodeRec where
  id := 9
  node_type := none
  file_id := 0
  name_offset := 0
  version := [7]
  exported := true
  replaces := none
  deleted := false
  name := none
  file := some [5]
  metadata := none

/-- The segment written from `[nNoType]`. -/
def segNoType : NodesSegmentModel := writeNodes [nNoType]

/-- A node record with every string field present, nonempty and distinct:
the C5 witness input. -/
def nAllFields : BNodeRec where
  id := 11
  node_type := some [1]
  file_id := 0
  name_offset := 0
  version := [4]
  exported := true
  replaces := some 3
  deleted := false
  name := some [3]
  file := some [2]
  metadata := some [6]

/-- The segment written from `[nAllFields]`. -/
def segAllFields : NodesSegmentModel := writeNodes [nAllFields]

/-!
## Theorems

### C9 — flush on an empty delta log is a no-op
-/

/-- C9: if the delta log is empty, `flush()` (and therefore `compact()`)
returns `Ok` immediately and changes nothing: the segment files are not
rewritten (flag `false`), the metadata counts are not updated, and the
in-memory segments, caches, adjacency maps and operation counter are all
left unchanged — the whole state is returned as is. -/
theorem c9_flush_empty_noop (e : GraphEngine) (h : e.deltaLog = []) :
    flush e = (e, false) ∧ compact e = (e, false) := by
  have hempty : e.deltaLog.isEmpty = true := by simp [h]
  refine ⟨?_, ?_⟩ <;> simp [flush, compact, hempty]

/-- C9 witness: the empty-delta hypothesis holds for a fresh engine, where
flush and compact indeed change nothing. -/
theorem c9_flush_empty_noop_witness :
    engineCreate.deltaLog = [] ∧
      flush engineCreate = (engineCreate, false) ∧ compact engineCreate = (engineCreate, false) :=
  ⟨rfl, c9_flush_empty_noop engineCreate rfl⟩

/-!
### C4 — delete_edge tombstones every matching delta entry
-/

/-- C4 (amended): `delete_edge(src, dst, type)` sets the deleted flag on
every delta edge entry matching on src, dst and type string (not only the
first undeleted one), leaves every non-matching delta entry unchanged, and
never touches segment edges or the adjacency maps before the next flush. -/
theorem c4_delete_edge_marks_all (e : GraphEngine) (src dst : Nat) (ty : String) :
    (deleteEdge e src dst ty).deltaEdges =
      e.deltaEdges.map (fun ed =>
        if ed.src == src && ed.dst == dst && ed.edge_type == some ty then
          { ed with deleted := true }
        else ed) ∧
    (∀ (i : Nat) (ed : ERec), e.deltaEdges[i]? = some ed →
      ¬(ed.src = src ∧ ed.dst = dst ∧ ed.edge_type = some ty) →
      (deleteEdge e src dst ty).deltaEdges[i]? = some ed) ∧
    (∀ (i : Nat) (ed : ERec), e.deltaEdges[i]? = some ed →
      ed.src = src → ed.dst = dst → ed.edge_type = some ty →
      (deleteEdge e src dst ty).deltaEdges[i]? = some { ed with deleted := true }) ∧
    (deleteEdge e src dst ty).segEdges = e.segEdges ∧
    (deleteEdge e src dst ty).adjacency = e.adjacency ∧
    (deleteEdge e src dst ty).deltaNodes = e.deltaNodes := by
  refine ⟨rfl, ?_, ?_, rfl, rfl, rfl⟩
  · intro i ed hi hne
    have hmatch : (ed.src == src && ed.dst == dst && ed.edge_type == some ty) = false := by
      by_contra hcon
      apply hne
      have := eq_true_of_ne_false hcon
      simp only [Bool.and_eq_true, beq_iff_eq] at this
      exact ⟨this.1.1, this.1.2, this.2⟩
    simp only [deleteEdge, applyDelta, List.getElem?_map, hi, Option.map_some']
    simp [hmatch]
  · intro i ed hi h1 h2 h3
    have hmatch : (ed.src == src && ed.dst == dst && ed.edge_type == some ty) = true := by
      simp [h1, h2, h3]
    simp only [deleteEdge, applyDelta, List.getElem?_map, hi, Option.map_some']
    simp [hmatch]

/-- C4 witness: with two identical matching delta edges and one
non-matching state component, the amended description applies at index 0
of `engDup`. -/
theorem c4_delete_edge_marks_all_witness :
    engDup.deltaEdges[0]? = some eAB ∧
      (deleteEdge engDup 1 2 "T").deltaEdges[0]? = some { eAB with deleted := true } :=
  ⟨by decide, (c4_delete_edge_marks_all engDup 1 2 "T").2.2.1 0 eAB (by decide) rfl rfl rfl⟩

/-- C4 counterexample: the claim as stated says only the first matching
undeleted entry is marked and every other delta entry is left unchanged;
but after inserting the edge 1 → 2 (type T) twice and calling
`delete_edge(1, 2, "T")` once, the second entry is tombstoned as well. -/
theorem c4_counterexample :
    engDup.deltaEdges[1]? = some eAB ∧
      engDupDel.deltaEdges[1]? = some { eAB with deleted := true } := by
  decide

/-!
### C1 — get_node: delta precedence, tombstones and deleted segment ids
-/

/-- C1 (amended): for every engine state, (i) a node present in the delta
with `deleted = false` is returned by `get_node` exactly as stored,
regardless of the segment contents and of `deleted_segment_ids`; (ii) an
id tombstoned in the delta yields `None`; (iii) an id in
`deleted_segment_ids` that is absent from the delta yields `None`, without
consulting the segment.  (The claim's unconditional reading of (iii) is
false: a later `add_nodes` re-inserts the id into the delta without
clearing `deleted_segment_ids`, and the delta is consulted first.) -/
theorem c1_get_node_cases (e : GraphEngine) (id : Nat) (n : NRec) :
    (mapLookup e.deltaNodes id = some n → n.deleted = false → getNode e id = some n) ∧
    (mapLookup e.deltaNodes id = some n → n.deleted = true → getNode e id = none) ∧
    (mapLookup e.deltaNodes id = none → e.deletedSegmentIds.contains id = true →
      getNode e id = none) := by
  refine ⟨?_, ?_, ?_⟩
  · intro h hd
    simp [getNode, h, hd]
  · intro h hd
    simp [getNode, h, hd]
  · intro h hc
    have hc2 : id ∈ e.deletedSegmentIds := by simpa using hc
    simp [getNode, h, hc2]

/-- C1 witness: the three hypotheses are discharged on concrete engines
(`engW` holds `n5` live in the delta; `engReAdd` has id 5 absent from the
delta after the tombstone case is replayed on a tombstoned variant). -/
theorem c1_get_node_cases_witness :
    mapLookup engW.deltaNodes 5 = some n5 ∧ n5.deleted = false ∧ getNode engW 5 = some n5 :=
  ⟨by decide, by decide, (c1_get_node_cases engW 5 n5).1 (by decide) (by decide)⟩

/-- C1 counterexample: the claim states that every id contained in
`deleted_segment_ids` answers `None`.  After `delete_node(5)` (id 5 enters
`deleted_segment_ids`) followed by `add_nodes([n5])`, id 5 is still in
`deleted_segment_ids` yet `get_node(5)` returns the delta record. -/
theorem c1_counterexample :
    engReAdd.deletedSegmentIds.contains 5 = true ∧ getNode engReAdd 5 = some n5 := by
  decide

/-!
### C2 — neighbors agrees with the segment-plus-delta union

The proof tracks `EngineInv`: restricted to segment indices, the adjacency
entry of every id lists exactly the live segment edges with that source,
in index order.  Fresh engines satisfy it trivially, delta operations only
append out-of-segment indices, and a flush rebuilds the map to satisfy it
definitionally.
-/

/-- Enumerating a list through `range`/`getElem?` and post-processing is
the same as filterMapping the list itself. -/
theorem range_getElem_filterMap {α β : Type} (l : List α) (k : α → Option β) :
    (List.range l.length).filterMap (fun i => l[i]?.bind k) = l.filterMap k := by
  induction l with
  | nil => simp
  | cons a t ih =>
      have hdrop : ∀ i : Nat, (a :: t)[i + 1]? = t[i]? := by
        intro i
        simp
      calc (List.range (a :: t).length).filterMap (fun i => (a :: t)[i]?.bind k)
          = (0 :: (List.range t.length).map Nat.succ).filterMap
              (fun i => (a :: t)[i]?.bind k) := by
            rw [List.length_cons, List.range_succ_eq_map]
        _ = ((some a).bind k).toList ++
              ((List.range t.length).map Nat.succ).filterMap (fun i => (a :: t)[i]?.bind k) := by
            cases hk : (some a).bind k <;> simp [List.filterMap_cons, hk]
        _ = ((some a).bind k).toList ++ (List.range t.length).filterMap (fun i => t[i]?.bind k) := by
            rw [List.filterMap_map]
            congr 1
            apply List.filterMap_congr
            intro i _
            simp [Function.comp, hdrop i]
        _ = (a :: t).filterMap k := by
            rw [ih]
            cases hk : k a <;> simp [List.filterMap_cons, hk]

/-- A filterMap ignores elements its function kills, so it can be
pre-filtered by any test implied by survival. -/
theorem filterMap_filter_of_none {α β : Type} (l : List α) (f : α → Option β) (p : α → Bool)
    (h : ∀ x, p x = false → f x = none) :
    l.filterMap f = (l.filter p).filterMap f := by
  induction l with
  | nil => simp
  | cons a t ih =>
      cases hp : p a with
      | false => simp [List.filterMap_cons, List.filter_cons, hp, h a hp, ih]
      | true => simp [List.filterMap_cons, List.filter_cons, hp, ih]

/-- Prefiltering a filterMap by any test implied by survival, stated in
the push-inside form. -/
theorem filterMap_of_filter {α β : Type} (l : List α) (q : α → Bool) (f : α → Option β) :
    (l.filter q).filterMap f = l.filterMap (fun x => if q x then f x else none) := by
  induction l with
  | nil => simp
  | cons a t ih =>
      cases hq : q a <;> simp [List.filter_cons, List.filterMap_cons, hq, ih]

/-- Appending an out-of-segment index to an adjacency entry is invisible
below the segment length. -/
theorem adjPush_filter_big (f : Nat → List Nat) (k g n id : Nat) (hg : ¬ g < n) :
    (adjPush f k g id).filter (fun idx => decide (idx < n)) =
      (f id).filter (fun idx => decide (idx < n)) := by
  unfold adjPush
  by_cases hid : id = k
  · rw [if_pos hid, List.filter_append]
    simp [hg]
  · rw [if_neg hid]

/-- A fresh engine satisfies the adjacency invariant. -/
theorem inv_engineCreate : EngineInv engineCreate := by
  intro id
  simp [engineCreate]

/-- `apply_delta` preserves the adjacency invariant: only `AddEdge`
touches the adjacency map, and it appends an index at or beyond the
segment edge count. -/
theorem inv_applyDelta (e : GraphEngine) (d : Delta) (h : EngineInv e) :
    EngineInv (applyDelta e d) := by
  cases d with
  | addNode node => exact h
  | deleteNode id =>
      by_cases hx : (mapLookup e.deltaNodes id).isSome <;> intro j <;>
        simp only [applyDelta, hx, if_true, if_false] <;> exact h j
  | addEdge edge =>
      intro id
      have hadj : (applyDelta e (.addEdge edge)).adjacency =
          adjPush e.adjacency edge.src (e.deltaEdges.length + e.segEdges.length) := rfl
      have hseg : (applyDelta e (.addEdge edge)).segEdges = e.segEdges := rfl
      rw [hadj, hseg, adjPush_filter_big _ _ _ _ id (by simp)]
      exact h id
  | deleteEdge src dst ty => exact h
  | updateNodeVersion id version => exact h

/-- The invariant does not depend on the delta log, the node caches, the
metadata counts or the operation counter. -/
theorem inv_congr (e e' : GraphEngine) (hadj : e'.adjacency = e.adjacency)
    (hseg : e'.segEdges = e.segEdges) (h : EngineInv e) : EngineInv e' := by
  intro id
  rw [hadj, hseg]
  exact h id

/-- `add_nodes` preserves the adjacency invariant. -/
theorem inv_addNodes (nodes : List NRec) :
    ∀ e : GraphEngine, EngineInv e → EngineInv (addNodes e nodes) := by
  have hfold : ∀ (ns : List NRec) (e : GraphEngine), EngineInv e →
      EngineInv (ns.foldl (fun acc node =>
        applyDelta { acc with deltaLog := acc.deltaLog ++ [Delta.addNode node] }
          (.addNode node)) e) := by
    intro ns
    induction ns with
    | nil => intro e h; exact h
    | cons n t ih =>
        intro e h
        apply ih
        apply inv_applyDelta
        exact inv_congr e _ rfl rfl h
  intro e h
  exact inv_congr _ _ rfl rfl (hfold nodes e h)

/-- `add_edges` preserves the adjacency invariant. -/
theorem inv_addEdges (edges : List ERec) (skip : Bool) :
    ∀ e : GraphEngine, EngineInv e → EngineInv (addEdges e edges skip) := by
  have hfold : ∀ (es : List ERec) (acc : GraphEngine × Nat), EngineInv acc.1 →
      EngineInv (es.foldl (fun acc edge =>
        if !skip && !(nodeExists acc.1 edge.src && nodeExists acc.1 edge.dst) then acc
        else
          (applyDelta { acc.1 with deltaLog := acc.1.deltaLog ++ [Delta.addEdge edge] }
            (.addEdge edge), acc.2 + 1)) acc).1 := by
    intro es
    induction es with
    | nil => intro acc h; exact h
    | cons ed t ih =>
        intro acc h
        apply ih
        dsimp only
        by_cases hc : (!skip && !(nodeExists acc.1 ed.src && nodeExists acc.1 ed.dst)) = true
        · rw [if_pos hc]
          exact h
        · rw [if_neg hc]
          exact inv_applyDelta _ _ (inv_congr acc.1 _ rfl rfl h)
  intro e h
  exact inv_congr _ _ rfl rfl (hfold edges (e, 0) h)

/-- `flush` preserves the adjacency invariant: the rebuilt map is the
invariant's right-hand side by construction. -/
theorem inv_flush (e : GraphEngine) (h : EngineInv e) : EngineInv (flush e).1 := by
  by_cases hempty : e.deltaLog.isEmpty = true
  · simpa [flush, hempty] using h
  · intro id
    simp only [flush, hempty, if_false]
    apply List.filter_eq_self.mpr
    intro i hi
    have := List.mem_range.mp (List.mem_of_mem_filter hi)
    simpa using this

/-- Every public operation preserves the adjacency invariant. -/
theorem inv_applyOp (e : GraphEngine) (op : Op) (h : EngineInv e) : EngineInv (applyOp e op) := by
  cases op with
  | addNodes nodes => exact inv_addNodes nodes e h
  | addEdges edges skip => exact inv_addEdges edges skip e h
  | deleteNode id => exact inv_applyDelta _ _ (inv_congr e _ rfl rfl h)
  | deleteEdge src dst ty => exact inv_applyDelta _ _ (inv_congr e _ rfl rfl h)
  | flush => exact inv_flush e h

/-- The adjacency invariant holds after every operation sequence. -/
theorem inv_runOps (ops : List Op) : EngineInv (runOps ops) := by
  have : ∀ (os : List Op) (e : GraphEngine), EngineInv e → EngineInv (os.foldl applyOp e) := by
    intro os
    induction os with
    | nil => intro e h; exact h
    | cons op t ih => intro e h; exact ih _ (inv_applyOp e op h)
  exact this ops engineCreate inv_engineCreate

/-- Under the invariant, `neighbors` is a filterMap of the concatenated
segment and delta edge lists. -/
theorem neighbors_eq_of_inv (e : GraphEngine) (h : EngineInv e) (id : Nat)
    (edgeTypes : List String) :
    neighbors e id edgeTypes =
      (e.segEdges ++ e.deltaEdges).filterMap (fun ed =>
        if !ed.deleted && ed.src == id then
          (if edgeTypeMatches edgeTypes ed.edge_type then some ed.dst else none)
        else none) := by
  unfold neighbors
  dsimp only
  rw [List.filterMap_append]
  congr 1
  · rw [filterMap_filter_of_none (e.adjacency id) _
      (fun idx => decide (idx < e.segEdges.length)) ?hnone]
    case hnone =>
      intro x hx
      have hxn : ¬ x < e.segEdges.length := by simpa using hx
      simp [hxn]
    rw [h id, filterMap_of_filter, ← range_getElem_filterMap e.segEdges (fun ed =>
      if !ed.deleted && ed.src == id then
        (if edgeTypeMatches edgeTypes ed.edge_type then some ed.dst else none)
      else none)]
    apply List.filterMap_congr
    intro i hi
    have hilt : i < e.segEdges.length := List.mem_range.mp hi
    cases hed : e.segEdges[i]? with
    | none =>
        have := (List.getElem?_eq_none_iff).mp hed
        omega
    | some ed =>
        simp only [hed, hilt, if_true]
        by_cases hd : (!ed.deleted) = true
        · have hd' : ed.deleted = false := by simpa using hd
          by_cases hs : (ed.src == id) = true
          · have hs' : ed.src = id := by simpa using hs
            simp [hd', hs']
          · have hs' : ¬ ed.src = id := by simpa using hs
            simp [hd', hs']
        · have hd' : ed.deleted = true := by simpa using hd
          simp [hd']
  · apply List.filterMap_congr
    intro ed _
    by_cases hd : (!ed.deleted) = true
    · have hd' : ed.deleted = false := by simpa using hd
      by_cases hs : (ed.src == id) = true
      · have hs' : ed.src = id := by simpa using hs
        simp [hd', hs']
      · have hs' : ¬ ed.src = id := by simpa using hs
        simp [hd', hs']
    · have hd' : ed.deleted = true := by simpa using hd
      simp [hd']

/-- C2: after every sequence of `add_nodes`, `add_edges`, `delete_node`,
`delete_edge` and `flush` operations, for every node id and the empty
edge-type filter, `neighbors(id, [])` equals, as a multiset, the `dst`
values of all non-tombstoned edges with source `id` in the union of the
segment and the delta. -/
theorem c2_neighbors_union (ops : List Op) (id : Nat) :
    (neighbors (runOps ops) id [] : Multiset Nat) = (unionOutDst (runOps ops) id : Multiset Nat) := by
  have hlist : neighbors (runOps ops) id [] = unionOutDst (runOps ops) id := by
    rw [neighbors_eq_of_inv (runOps ops) (inv_runOps ops) id []]
    unfold unionOutDst
    apply List.filterMap_congr
    intro ed _
    by_cases hc : (!ed.deleted && ed.src == id) = true <;> simp [hc, edgeTypeMatches]
  rw [hlist]

/-!
### C6 — BFS correctness

`bfsGo_spec` is the central loop invariant: entering level `d` with
visited set `reachBelow d` and a queue that covers `reachSet d` up to the
visited set, the remaining output is exactly `reachSet (d + fuel - 1)`
minus the visited set, without duplicates and in non-decreasing order of
discovery depth.
-/

section Traversal

variable (next : Nat → List Nat) (start : List Nat)

/-- `reachSet` grows along one step. -/
theorem reachSet_subset_succ (d : Nat) :
    reachSet next start d ⊆ reachSet next start (d + 1) := by
  intro x hx
  exact Or.inl hx

/-- `reachSet` is monotone in the depth. -/
theorem reachSet_mono {d d' : Nat} (h : d ≤ d') :
    reachSet next start d ⊆ reachSet next start d' := by
  induction h with
  | refl => exact fun x hx => hx
  | step _ ih => exact fun x hx => reachSet_subset_succ next start _ (ih hx)

/-- One neighbor step from `reachSet d` lands in `reachSet (d + 1)`. -/
theorem reachSet_step {d : Nat} {v u : Nat} (hv : v ∈ reachSet next start d)
    (hu : u ∈ next v) : u ∈ reachSet next start (d + 1) :=
  Or.inr ⟨v, hv, hu⟩

/-- The strictly-below set is contained in the level set. -/
theorem reachBelow_subset (d : Nat) :
    reachBelow next start d ⊆ reachSet next start d := by
  cases d with
  | zero => exact fun x hx => absurd hx (Set.not_mem_empty x)
  | succ e => exact reachSet_subset_succ next start e

/-- A neighbor step from below level `d` stays in level `d`. -/
theorem reachBelow_step {d : Nat} {v u : Nat} (hv : v ∈ reachBelow next start d)
    (hu : u ∈ next v) : u ∈ reachSet next start d := by
  cases d with
  | zero => exact absurd hv (Set.not_mem_empty v)
  | succ e => exact reachSet_step next start hv hu

/-- Once a level adds nothing new, the sets are stable forever after. -/
theorem reachSet_stab {k : Nat} (h : reachSet next start (k + 1) ⊆ reachSet next start k) :
    ∀ j, reachSet next start (k + j) ⊆ reachSet next start k := by
  intro j
  induction j with
  | zero => exact fun x hx => hx
  | succ j ih =>
      intro x hx
      rcases hx with hx | ⟨v, hv, hu⟩
      · exact ih hx
      · exact h (reachSet_step next start (ih hv) hu)

/-- If the start list is empty, every level set is empty. -/
theorem reachSet_empty_start (h : ∀ x, x ∉ reachSet next start 0) :
    ∀ j x, x ∉ reachSet next start j := by
  intro j
  induction j with
  | zero => exact h
  | succ j ih =>
      intro x hx
      rcases hx with hx | ⟨v, hv, _⟩
      · exact ih x hx
      · exact ih v hv

/-- The ordering relation of first-discovery order: `a` is discovered no
deeper than `b`.  It holds whenever `a` lies in level `d`, `b` does not
lie strictly below `d`. -/
theorem rel_of_level {d : Nat} {a b : Nat} (ha : a ∈ reachSet next start d)
    (hb : b ∉ reachBelow next start d) :
    ∀ k, b ∈ reachSet next start k → a ∈ reachSet next start k := by
  intro k hbk
  by_cases hkd : d ≤ k
  · exact reachSet_mono next start hkd ha
  · exfalso
    cases d with
    | zero => omega
    | succ e =>
        have hk : k ≤ e := by omega
        exact hb (reachSet_mono next start hk hbk)

/-- Appending one edge to a walk. -/
theorem stepPath_snoc {a b c k : Nat} (h : stepPath next a b k) (hc : c ∈ next b) :
    stepPath next a c (k + 1) := by
  induction k generalizing a with
  | zero =>
      cases h
      exact ⟨c, hc, rfl⟩
  | succ k ih =>
      obtain ⟨m, hm, hp⟩ := h
      exact ⟨m, hm, ih hp⟩

/-- Splitting the last edge off a walk. -/
theorem stepPath_last {a b k : Nat} (h : stepPath next a b (k + 1)) :
    ∃ v, stepPath next a v k ∧ b ∈ next v := by
  induction k generalizing a with
  | zero =>
      obtain ⟨c, hc, hcb⟩ := h
      cases hcb
      exact ⟨a, rfl, hc⟩
  | succ k ih =>
      obtain ⟨c, hc, hp⟩ := h
      obtain ⟨v, hv, hb⟩ := ih hp
      exact ⟨v, ⟨c, hc, hv⟩, hb⟩

/-- The level sets capture exactly the nodes with a walk of bounded
length from some start node. -/
theorem reachSet_iff_stepPath (n : Nat) (x : Nat) :
    x ∈ reachSet next start n ↔ ∃ s ∈ start, ∃ k ≤ n, stepPath next s x k := by
  induction n generalizing x with
  | zero =>
      constructor
      · intro hx
        exact ⟨x, hx, 0, Nat.le_refl 0, rfl⟩
      · rintro ⟨s, hs, k, hk, hp⟩
        interval_cases k
        cases hp
        exact hs
  | succ n ih =>
      constructor
      · intro hx
        rcases hx with hx | ⟨v, hv, hu⟩
        · obtain ⟨s, hs, k, hk, hp⟩ := (ih x).mp hx
          exact ⟨s, hs, k, Nat.le_succ_of_le hk, hp⟩
        · obtain ⟨s, hs, k, hk, hp⟩ := (ih v).mp hv
          exact ⟨s, hs, k + 1, Nat.succ_le_succ hk, stepPath_snoc next hp hu⟩
      · rintro ⟨s, hs, k, hk, hp⟩
        by_cases hkn : k ≤ n
        · exact reachSet_subset_succ next start n ((ih x).mpr ⟨s, hs, k, hkn, hp⟩)
        · have hk1 : k = n + 1 := by omega
          subst hk1
          obtain ⟨v, hv, hb⟩ := stepPath_last next hp
          exact reachSet_step next start ((ih v).mpr ⟨s, hs, n, Nat.le_refl n, hv⟩) hb

end Traversal

section TraversalLoop

variable {next : Nat → List Nat}

/-- After a level, the visited set is the old one plus the whole queue. -/
theorem processLevel_visited (queue : List Nat) :
    ∀ (visited : List Nat) (x : Nat),
      x ∈ (processLevel next visited queue).1 ↔ x ∈ visited ∨ x ∈ queue := by
  induction queue with
  | nil => intro visited x; simp [processLevel]
  | cons n rest ih =>
      intro visited x
      by_cases hn : visited.contains n = true
      · have hn' : n ∈ visited := by simpa using hn
        rw [processLevel, if_pos hn, ih]
        simp only [List.mem_cons]
        constructor
        · rintro (h | h)
          · exact Or.inl h
          · exact Or.inr (Or.inr h)
        · rintro (h | hxn | h)
          · exact Or.inl h
          · subst hxn; exact Or.inl hn'
          · exact Or.inr h
      · rw [processLevel, if_neg hn, ih]
        simp only [List.mem_cons]
        constructor
        · rintro ((hxn | h) | h)
          · exact Or.inr (Or.inl hxn)
          · exact Or.inl h
          · exact Or.inr (Or.inr h)
        · rintro (h | hxn | h)
          · exact Or.inl (Or.inr h)
          · exact Or.inl (Or.inl hxn)
          · exact Or.inr h

/-- The level output is exactly the queue minus the visited set. -/
theorem processLevel_out_mem (queue : List Nat) :
    ∀ (visited : List Nat) (x : Nat),
      x ∈ (processLevel next visited queue).2.1 ↔ x ∈ queue ∧ x ∉ visited := by
  induction queue with
  | nil => intro visited x; simp [processLevel]
  | cons n rest ih =>
      intro visited x
      by_cases hn : visited.contains n = true
      · have hn' : n ∈ visited := by simpa using hn
        rw [processLevel, if_pos hn, ih]
        simp only [List.mem_cons]
        constructor
        · rintro ⟨h1, h2⟩
          exact ⟨Or.inr h1, h2⟩
        · rintro ⟨hxn | h1, h2⟩
          · subst hxn; exact absurd hn' h2
          · exact ⟨h1, h2⟩
      · have hn' : n ∉ visited := by simpa using hn
        rw [processLevel, if_neg hn]
        simp only [List.mem_cons, ih]
        constructor
        · rintro (hxn | ⟨h1, h2⟩)
          · exact ⟨Or.inl hxn, by subst hxn; exact hn'⟩
          · refine ⟨Or.inr h1, fun hv => h2 (Or.inr hv)⟩
        · rintro ⟨hxn | h1, h2⟩
          · exact Or.inl hxn
          · by_cases hxn : x = n
            · exact Or.inl hxn
            · exact Or.inr ⟨h1, by
                rintro (hx | hx)
                · exact hxn hx
                · exact h2 hx⟩

/-- The level output has no duplicates. -/
theorem processLevel_out_nodup (queue : List Nat) :
    ∀ visited : List Nat, (processLevel next visited queue).2.1.Nodup := by
  induction queue with
  | nil => intro visited; simp [processLevel]
  | cons n rest ih =>
      intro visited
      by_cases hn : visited.contains n = true
      · rw [processLevel, if_pos hn]
        exact ih visited
      · rw [processLevel, if_neg hn]
        refine List.Nodup.cons ?_ (ih (n :: visited))
        intro hmem
        have := (processLevel_out_mem rest (n :: visited) n).mp hmem
        exact this.2 (List.mem_cons_self n visited)

/-- Everything enqueued during a level is a neighbor of a queue node. -/
theorem processLevel_queue_sub (queue : List Nat) :
    ∀ (visited : List Nat) (x : Nat),
      x ∈ (processLevel next visited queue).2.2 → ∃ v ∈ queue, x ∈ next v := by
  induction queue with
  | nil => intro visited x h; simp [processLevel] at h
  | cons n rest ih =>
      intro visited x h
      by_cases hn : visited.contains n = true
      · rw [processLevel, if_pos hn] at h
        obtain ⟨v, hv, hx⟩ := ih visited x h
        exact ⟨v, List.mem_cons_of_mem n hv, hx⟩
      · rw [processLevel, if_neg hn] at h
        rcases List.mem_append.mp h with h | h
        · exact ⟨n, List.mem_cons_self n rest, (List.mem_filter.mp h).1⟩
        · obtain ⟨v, hv, hx⟩ := ih (n :: visited) x h
          exact ⟨v, List.mem_cons_of_mem n hv, hx⟩

/-- A neighbor of an unvisited queue node that is still unvisited after
the level ends up in the next queue. -/
theorem processLevel_queue_complete (queue : List Nat) :
    ∀ (visited : List Nat) (v x : Nat), v ∈ queue → v ∉ visited → x ∈ next v →
      x ∉ (processLevel next visited queue).1 → x ∈ (processLevel next visited queue).2.2 := by
  induction queue with
  | nil => intro visited v x hv _ _ _; simp at hv
  | cons n rest ih =>
      intro visited v x hv hvnv hx hnv
      by_cases hn : visited.contains n = true
      · have hn' : n ∈ visited := by simpa using hn
        rw [processLevel, if_pos hn] at hnv ⊢
        rcases List.mem_cons.mp hv with rfl | hv
        · exact absurd hn' hvnv
        · exact ih visited v x hv hvnv hx hnv
      · rw [processLevel, if_neg hn] at hnv ⊢
        have hP1 : ∀ y, y ∈ (processLevel next (n :: visited) rest).1 ↔
            y ∈ (n :: visited) ∨ y ∈ rest := fun y => processLevel_visited rest (n :: visited) y
        rcases List.mem_cons.mp hv with hvn | hv
        · -- x is a neighbor of n, which is processed now
          rw [hvn] at hx
          apply List.mem_append.mpr
          left
          apply List.mem_filter.mpr
          refine ⟨hx, ?_⟩
          have hxnv : x ∉ (n :: visited) := by
            intro hc
            exact hnv ((hP1 x).mpr (Or.inl hc))
          simpa using hxnv
        · by_cases hvn : v = n
          · rw [hvn] at hx
            apply List.mem_append.mpr
            left
            apply List.mem_filter.mpr
            refine ⟨hx, ?_⟩
            have hxnv : x ∉ (n :: visited) := by
              intro hc
              exact hnv ((hP1 x).mpr (Or.inl hc))
            simpa using hxnv
          · have hvnv' : v ∉ (n :: visited) := by
              intro hc
              rcases List.mem_cons.mp hc with h | h
              · exact hvn h
              · exact hvnv h
            exact List.mem_append.mpr (Or.inr (ih (n :: visited) v x hv hvnv' hx hnv))

end TraversalLoop

/-- Once the whole level-`d` set is below level `d`, all later sets also
are — exactly the situation when the loop's queue runs empty. -/
theorem reachSet_stab_below (next : Nat → List Nat) (start : List Nat) (d : Nat)
    (h : reachSet next start d ⊆ reachBelow next start d) :
    ∀ j, reachSet next start (d + j) ⊆ reachBelow next start d := by
  cases d with
  | zero =>
      intro j x hx
      exfalso
      exact reachSet_empty_start next start (fun y hy => h hy) j x (by simpa using hx)
  | succ e =>
      intro j
      have hsub : reachSet next start (e + 1) ⊆ reachSet next start e := h
      have := reachSet_stab next start hsub (1 + j)
      intro x hx
      apply this
      have harith : e + (1 + j) = e + 1 + j := by omega
      rw [harith]
      exact hx

/-- The BFS loop invariant: entering level `d` with the right visited set
and queue, the remaining output is `reachSet (d + fuel)` minus the visited
set, duplicate-free and in non-decreasing discovery depth. -/
theorem bfsGo_spec (next : Nat → List Nat) (start : List Nat) :
    ∀ (f d : Nat) (visited queue : List Nat),
      (∀ x, x ∈ visited ↔ x ∈ reachBelow next start d) →
      (∀ x ∈ queue, x ∈ reachSet next start d) →
      (∀ x, x ∈ reachSet next start d → x ∈ visited ∨ x ∈ queue) →
      (∀ x, x ∈ bfsGo next (f + 1) visited queue ↔
        x ∈ reachSet next start (d + f) ∧ x ∉ reachBelow next start d) ∧
      (bfsGo next (f + 1) visited queue).Nodup ∧
      (bfsGo next (f + 1) visited queue).Pairwise
        (fun a b => ∀ k, b ∈ reachSet next start k → a ∈ reachSet next start k) := by
  intro f
  induction f with
  | zero =>
      intro d visited queue h1 h2 h3
      by_cases hq : queue.isEmpty = true
      · have hqnil : queue = [] := List.isEmpty_iff.mp hq
        have hempty : bfsGo next 1 visited queue = [] := by
          rw [bfsGo, if_pos hq]
        rw [hempty]
        refine ⟨?_, List.nodup_nil, List.Pairwise.nil⟩
        intro x
        simp only [List.not_mem_nil, false_iff, not_and, Nat.add_zero]
        intro hx
        rcases h3 x hx with hv | hv
        · simp [(h1 x).mp hv]
        · rw [hqnil] at hv
          simp at hv
      · have hunfold : bfsGo next 1 visited queue =
            (processLevel next visited queue).2.1 := by
          rw [bfsGo, if_neg hq]
          simp [bfsGo]
        have hlevel : ∀ x, x ∈ (processLevel next visited queue).2.1 ↔
            x ∈ reachSet next start d ∧ x ∉ reachBelow next start d := by
          intro x
          rw [processLevel_out_mem]
          constructor
          · rintro ⟨hxq, hxv⟩
            exact ⟨h2 x hxq, fun hb => hxv ((h1 x).mpr hb)⟩
          · rintro ⟨hS, hnb⟩
            have hxv : x ∉ visited := fun hv => hnb ((h1 x).mp hv)
            rcases h3 x hS with hv | hv
            · exact absurd hv hxv
            · exact ⟨hv, hxv⟩
        rw [hunfold]
        refine ⟨?_, processLevel_out_nodup queue visited, ?_⟩
        · intro x
          rw [hlevel x, Nat.add_zero]
        · apply List.pairwise_of_forall_mem_list
          intro a ha b hb
          exact rel_of_level next start ((hlevel a).mp ha).1 ((hlevel b).mp hb).2
  | succ f ih =>
      intro d visited queue h1 h2 h3
      by_cases hq : queue.isEmpty = true
      · have hqnil : queue = [] := List.isEmpty_iff.mp hq
        have hempty : bfsGo next (f + 1 + 1) visited queue = [] := by
          rw [bfsGo, if_pos hq]
        rw [hempty]
        refine ⟨?_, List.nodup_nil, List.Pairwise.nil⟩
        intro x
        simp only [List.not_mem_nil, false_iff, not_and]
        intro hx
        have hsub : reachSet next start d ⊆ reachBelow next start d := by
          intro y hy
          rcases h3 y hy with hv | hv
          · exact (h1 y).mp hv
          · rw [hqnil] at hv
            simp at hv
        intro hb
        exact hb (reachSet_stab_below next start d hsub (f + 1) hx)
      · have hunfold : bfsGo next (f + 1 + 1) visited queue =
            (processLevel next visited queue).2.1 ++
              bfsGo next (f + 1) (processLevel next visited queue).1
                (processLevel next visited queue).2.2 := by
          rw [bfsGo, if_neg hq]
        have hlevel : ∀ x, x ∈ (processLevel next visited queue).2.1 ↔
            x ∈ reachSet next start d ∧ x ∉ reachBelow next start d := by
          intro x
          rw [processLevel_out_mem]
          constructor
          · rintro ⟨hxq, hxv⟩
            exact ⟨h2 x hxq, fun hb => hxv ((h1 x).mpr hb)⟩
          · rintro ⟨hS, hnb⟩
            have hxv : x ∉ visited := fun hv => hnb ((h1 x).mp hv)
            rcases h3 x hS with hv | hv
            · exact absurd hv hxv
            · exact ⟨hv, hxv⟩
        have h1' : ∀ x, x ∈ (processLevel next visited queue).1 ↔
            x ∈ reachBelow next start (d + 1) := by
          intro x
          rw [processLevel_visited]
          show _ ↔ x ∈ reachSet next start d
          constructor
          · rintro (hv | hv)
            · exact reachBelow_subset next start d ((h1 x).mp hv)
            · exact h2 x hv
          · intro hx
            exact h3 x hx
        have h2' : ∀ x ∈ (processLevel next visited queue).2.2,
            x ∈ reachSet next start (d + 1) := by
          intro x hx
          obtain ⟨v, hv, hxv⟩ := processLevel_queue_sub queue visited x hx
          exact reachSet_step next start (h2 v hv) hxv
        have h3' : ∀ x, x ∈ reachSet next start (d + 1) →
            x ∈ (processLevel next visited queue).1 ∨
              x ∈ (processLevel next visited queue).2.2 := by
          intro x hx
          by_cases hxP : x ∈ (processLevel next visited queue).1
          · exact Or.inl hxP
          · rcases hx with hx | ⟨v, hv, hxv⟩
            · exact Or.inl ((h1' x).mpr hx)
            · by_cases hvv : v ∈ visited
              · exfalso
                apply hxP
                apply (h1' x).mpr
                show x ∈ reachSet next start d
                exact reachBelow_step next start ((h1 v).mp hvv) hxv
              · rcases h3 v hv with hvis | hvq
                · exact absurd hvis hvv
                · exact Or.inr
                    (processLevel_queue_complete queue visited v x hvq hvv hxv hxP)
        obtain ⟨ha, hb, hc⟩ := ih (d + 1) (processLevel next visited queue).1
          (processLevel next visited queue).2.2 h1' h2' h3'
        have harith : d + 1 + f = d + (f + 1) := by omega
        rw [hunfold]
        refine ⟨?_, ?_, ?_⟩
        · intro x
          rw [List.mem_append, hlevel x]
          constructor
          · rintro (⟨hS, hnb⟩ | hrec)
            · exact ⟨reachSet_mono next start (Nat.le_add_right d (f + 1)) hS, hnb⟩
            · obtain ⟨hS, hnS⟩ := (ha x).mp hrec
              rw [harith] at hS
              refine ⟨hS, fun hbel => hnS ?_⟩
              exact reachBelow_subset next start d hbel
          · rintro ⟨hS, hnb⟩
            by_cases hxd : x ∈ reachSet next start d
            · exact Or.inl ⟨hxd, hnb⟩
            · refine Or.inr ((ha x).mpr ⟨?_, hxd⟩)
              rw [harith]
              exact hS
        · refine List.Nodup.append (processLevel_out_nodup queue visited) hb ?_
          intro a haL haR
          have h1a := ((hlevel a).mp haL).1
          have h2a := (ha a).mp haR
          exact h2a.2 h1a
        · apply List.pairwise_append.mpr
          refine ⟨?_, hc, ?_⟩
          · apply List.pairwise_of_forall_mem_list
            intro a hA b hB
            exact rel_of_level next start ((hlevel a).mp hA).1 ((hlevel b).mp hB).2
          · intro a hA b hB
            have haS : a ∈ reachSet next start (d + 1) :=
              reachSet_subset_succ next start d ((hlevel a).mp hA).1
            have hbS : b ∉ reachBelow next start (d + 1) := ((ha b).mp hB).2
            exact rel_of_level next start haS hbS

/-- BFS output membership: exactly the nodes within `maxDepth` levels. -/
theorem bfs_mem (start : List Nat) (maxDepth : Nat) (next : Nat → List Nat) (x : Nat) :
    x ∈ bfs start maxDepth next ↔ x ∈ reachSet next start maxDepth := by
  have h := (bfsGo_spec next start maxDepth 0 [] start
    (by intro y; simp [reachBelow])
    (by intro y hy; exact hy)
    (by intro y hy; exact Or.inr hy)).1 x
  rw [bfs]
  rw [h, Nat.zero_add]
  simp [reachBelow]

/-- BFS output has no duplicates. -/
theorem bfs_nodup (start : List Nat) (maxDepth : Nat) (next : Nat → List Nat) :
    (bfs start maxDepth next).Nodup :=
  (bfsGo_spec next start maxDepth 0 [] start
    (by intro y; simp [reachBelow])
    (by intro y hy; exact hy)
    (by intro y hy; exact Or.inr hy)).2.1

/-- BFS output is ordered by non-decreasing discovery depth. -/
theorem bfs_pairwise (start : List Nat) (maxDepth : Nat) (next : Nat → List Nat) :
    (bfs start maxDepth next).Pairwise
      (fun a b => ∀ k, b ∈ reachSet next start k → a ∈ reachSet next start k) :=
  (bfsGo_spec next start maxDepth 0 [] start
    (by intro y; simp [reachBelow])
    (by intro y hy; exact hy)
    (by intro y hy; exact Or.inr hy)).2.2

/-- A single start node at depth 0 yields exactly that node. -/
theorem bfs_single (v : Nat) (next : Nat → List Nat) : bfs [v] 0 next = [v] := by
  simp [bfs, bfsGo, processLevel]

/-- C6: for every start list, depth bound and neighbor function, `bfs`
outputs each node at most once (`Nodup`), outputs exactly the nodes
reachable by a walk of at most `maxDepth` edges from some start node, in
non-decreasing order of discovery depth, and `bfs([v], 0, next) = [v]`. -/
theorem c6_bfs_correct (start : List Nat) (maxDepth : Nat) (next : Nat → List Nat) :
    (bfs start maxDepth next).Nodup ∧
    (∀ u, u ∈ bfs start maxDepth next ↔ ∃ s ∈ start, ∃ k ≤ maxDepth, stepPath next s u k) ∧
    (bfs start maxDepth next).Pairwise
      (fun a b => ∀ k, b ∈ reachSet next start k → a ∈ reachSet next start k) ∧
    (∀ v, bfs [v] 0 next = [v]) := by
  refine ⟨bfs_nodup start maxDepth next, ?_, bfs_pairwise start maxDepth next,
    fun v => bfs_single v next⟩
  intro u
  rw [bfs_mem, reachSet_iff_stepPath]

/-!
### C3 — the path built-in
-/

/-- List `contains` agrees with membership on `Nat`. -/
theorem contains_iff_mem (l : List Nat) (a : Nat) : l.contains a = true ↔ a ∈ l := by
  simp [List.contains, List.elem_iff]

/-- C3 (amended): for every engine state and every pair of constant node
ids `s`, `d` (decimal strings that parse as `u128`), the goal
`path(s, d)` succeeds — with a single empty binding set — iff `d` lies in
the BFS result from `s` with `max_depth = 100` and no edge-type filter:
for `s ≠ d` that means a path of length between 1 and 100 exists, while
`path(s, s)` always succeeds, because the BFS output always contains the
start node and this mode has no self-exclusion. -/
theorem c3_path_const_const (ev : Evaluator) (ss ds : String) (s d : Nat)
    (hs : parseU128 ss = some s) (hd : parseU128 ds = some d) :
    (evalPath ev { predicate := "path", args := [Term.const ss, Term.const ds] } ≠ [] ↔
      (s = d ∨ ∃ k, 1 ≤ k ∧ k ≤ 100 ∧
        stepPath (fun id => neighbors ev.engine id []) s d k)) ∧
    (evalPath ev { predicate := "path", args := [Term.const ss, Term.const ds] } = [] ∨
      evalPath ev { predicate := "path", args := [Term.const ss, Term.const ds] } =
        [Bindings.empty]) := by
  have hred : evalPath ev { predicate := "path", args := [Term.const ss, Term.const ds] } =
      if (engineBfs ev.engine [s] 100 []).contains d then [Bindings.empty] else [] := by
    simp [evalPath, hs, hd]
  have hmem : d ∈ engineBfs ev.engine [s] 100 [] ↔
      (s = d ∨ ∃ k, 1 ≤ k ∧ k ≤ 100 ∧
        stepPath (fun id => neighbors ev.engine id []) s d k) := by
    rw [show engineBfs ev.engine [s] 100 [] =
          bfs [s] 100 (fun id => neighbors ev.engine id []) from rfl]
    rw [bfs_mem, reachSet_iff_stepPath]
    constructor
    · rintro ⟨s', hs', k, hk, hp⟩
      have hss : s' = s := by simpa using hs'
      subst hss
      cases k with
      | zero => exact Or.inl hp
      | succ k => exact Or.inr ⟨k + 1, Nat.succ_le_succ (Nat.zero_le k), hk, hp⟩
    · rintro (hsd | ⟨k, _, hk, hp⟩)
      · exact ⟨s, by simp, 0, Nat.zero_le 100, hsd⟩
      · exact ⟨s, by simp, k, hk, hp⟩
  constructor
  · rw [hred]
    by_cases hc : (engineBfs ev.engine [s] 100 []).contains d = true
    · rw [if_pos hc]
      exact iff_of_true (by simp) (hmem.mp ((contains_iff_mem _ d).mp hc))
    · rw [if_neg hc]
      apply iff_of_false (by simp)
      intro hcon
      exact hc ((contains_iff_mem _ d).mpr (hmem.mpr hcon))
  · rw [hred]
    by_cases hc : (engineBfs ev.engine [s] 100 []).contains d = true
    · rw [if_pos hc]
      exact Or.inr rfl
    · rw [if_neg hc]
      exact Or.inl rfl

/-- C3 witness: at the empty engine and the concrete goal
`path("1", "1")`, the parse hypotheses hold and the amended equivalence
applies — the left disjunct `s = d` makes the goal succeed. -/
theorem c3_path_const_const_witness :
    parseU128 "1" = some 1 ∧
      (evalPath evEmpty pathAtom11 ≠ [] ↔
        ((1 : Nat) = 1 ∨ ∃ k, 1 ≤ k ∧ k ≤ 100 ∧
          stepPath (fun id => neighbors evEmpty.engine id []) 1 1 k)) :=
  ⟨by decide, (c3_path_const_const evEmpty "1" "1" 1 1 (by decide) (by decide)).1⟩

/-!
### C10 — projection never checks query constants
-/

/-- `Bindings.set` then `get`: the freshly set key wins, other keys are
unchanged. -/
theorem bMapSet_get (m : List (String × Value)) (k : String) (v : Value) (x : String) :
    ((bMapSet m k v).find? (fun p => p.1 == x)).map Prod.snd =
      if x = k then some v else (m.find? (fun p => p.1 == x)).map Prod.snd := by
  induction m with
  | nil =>
      by_cases hxk : x = k
      · subst hxk
        simp [bMapSet, List.find?]
      · have hkx : (k == x) = false := by
          simp only [beq_eq_false_iff_ne]
          exact fun h => hxk h.symm
        simp [bMapSet, List.find?, hkx, hxk]
  | cons p rest ih =>
      obtain ⟨k', v'⟩ := p
      cases hk : (k' == k) with
      | true =>
          have hk' : k' = k := by simpa using hk
          subst hk'
          by_cases hxk : x = k'
          · subst hxk
            simp [bMapSet, hk, List.find?]
          · have h1 : (k' == x) = false := by
              simp only [beq_eq_false_iff_ne]
              exact fun h => hxk h.symm
            simp [bMapSet, hk, List.find?, h1, hxk]
      | false =>
          by_cases hxk : x = k
          · subst hxk
            have h1 : (k' == x) = false := hk
            simp [bMapSet, hk, List.find?, h1, ih]
          · cases h1 : (k' == x) with
            | true => simp [bMapSet, hk, List.find?, h1, hxk]
            | false => simp [bMapSet, hk, List.find?, h1, ih, hxk]

/-- `get` after `set` on `Bindings`. -/
theorem Bindings.get_set (b : Bindings) (k : String) (v : Value) (x : String) :
    (b.set k v).get x = if x = k then some v else b.get x :=
  bMapSet_get b.map k v x

/-- Keys of the projection result only arise at query positions that hold
variables. -/
theorem projectGo_dom (headArgs : List Term) :
    ∀ (queryArgs : List Term) (b : Bindings) (i : Nat) (acc : Bindings) (v : String)
      (val : Value),
      (projectGo headArgs queryArgs b i acc).get v = some val →
      acc.get v = some val ∨ ∃ j : Nat, queryArgs[j]? = some (Term.var v) := by
  induction headArgs with
  | nil =>
      intro queryArgs b i acc v val h
      exact Or.inl h
  | cons t rest ih =>
      intro queryArgs b i acc v val h
      cases t with
      | const s => exact ih queryArgs b (i + 1) acc v val h
      | wildcard => exact ih queryArgs b (i + 1) acc v val h
      | var nm =>
          have hstep : projectGo (Term.var nm :: rest) queryArgs b i acc =
              projectGo rest queryArgs b (i + 1)
                (match b.get nm with
                 | some value =>
                     (match queryArgs[i]? with
                      | some (Term.var queryVar) => acc.set queryVar value
                      | _ => acc)
                 | none => acc) := rfl
          rw [hstep] at h
          rcases hbv : b.get nm with - | value
          case none =>
              rw [hbv] at h
              exact ih queryArgs b (i + 1) acc v val h
          case some =>
              rw [hbv] at h
              rcases hq : queryArgs[i]? with - | qt
              case none =>
                  rw [hq] at h
                  exact ih queryArgs b (i + 1) acc v val h
              case some =>
                  rw [hq] at h
                  cases qt with
                  | const s => exact ih queryArgs b (i + 1) acc v val h
                  | wildcard => exact ih queryArgs b (i + 1) acc v val h
                  | var qv =>
                      rcases ih queryArgs b (i + 1) (acc.set qv value) v val h with hacc | hj
                      · rw [Bindings.get_set] at hacc
                        by_cases hv : v = qv
                        · subst hv
                          exact Or.inr ⟨i, hq⟩
                        · rw [if_neg hv] at hacc
                          exact Or.inl hacc
                      · exact Or.inr hj

/-- C10: when a derived predicate is queried with a constant in a position
where the rule head has a variable, the evaluator never compares the
body's binding for that variable against the constant: `project_to_head`
always succeeds, and its result binds only variables found at query
positions (constants are never inspected).  Concretely, over a graph with
the single node 1 of type T and the rule `p(X) :- node(X, "T").`, the
query `p("2")` succeeds with an empty binding set although the body's only
solution binds X to id 1 ≠ 2. -/
theorem c10_projection_ignores_constants :
    (∀ (rule : Rule) (query : Atom) (b : Bindings),
      (projectToHead rule query b).isSome = true) ∧
    (∀ (rule : Rule) (query : Atom) (b r : Bindings) (v : String) (val : Value),
      projectToHead rule query b = some r → r.get v = some val →
      ∃ j : Nat, query.args[j]? = some (Term.var v)) ∧
    evalAtomF evP 10 pAtom2 = [Bindings.empty] ∧
    evalRuleBodyWith (fun a => evalAtomF evP 9 a) ruleP = [Bindings.single "X" (Value.id 1)] ∧
    (Bindings.single "X" (Value.id 1)).get "X" = some (Value.id 1) ∧
    Value.id 1 ≠ Value.id 2 := by
  refine ⟨fun rule query b => rfl, ?_, by decide, by decide, by decide, by decide⟩
  intro rule query b r v val hproj hget
  rw [projectToHead] at hproj
  injection hproj with hr
  subst hr
  rcases projectGo_dom rule.head.args query.args b 0 Bindings.empty v val hget with hacc | hj
  · simp [Bindings.get, Bindings.empty, List.find?] at hacc
  · exact hj

/-- C10 witness: the projection hypotheses are discharged at the rule
`p(X) :- node(X, "T").`, the query `p(Y)` and the body solution binding X
to 1; the key Y of the projection result indeed sits at a variable
position of the query. -/
theorem c10_projection_ignores_constants_witness :
    projectToHead ruleP pAtomY bX = some (Bindings.single "Y" (Value.id 1)) ∧
      (Bindings.single "Y" (Value.id 1)).get "Y" = some (Value.id 1) ∧
      ∃ j : Nat, pAtomY.args[j]? = some (Term.var "Y") :=
  ⟨by decide, by decide,
    c10_projection_ignores_constants.2.1 ruleP pAtomY bX
      (Bindings.single "Y" (Value.id 1)) "Y" (Value.id 1) (by decide) (by decide)⟩

/-!
### C8 — term classification of the parser
-/

/-- An ASCII uppercase character is not lowercase. -/
theorem isUpper_not_isLower (c : Char) (h : c.isUpper = true) : c.isLower = false := by
  simp [Char.isUpper, Char.isLower] at *
  intro h2
  obtain ⟨h65, h90⟩ := h
  exfalso
  have hn1 : c.val.toNat ≤ (90 : UInt32).toNat := h90
  have hn2 : (97 : UInt32).toNat ≤ c.val.toNat := h2
  have e1 : (90 : UInt32).toNat = 90 := rfl
  have e2 : (97 : UInt32).toNat = 97 := rfl
  omega

/-- C8 (amended): for every choice of the Unicode classifiers satisfying
`ccFacts` (which Rust's do), whenever the term parser succeeds the result
is a variable exactly when the first significant character is an
uppercase letter; a wildcard exactly when it is `_` not followed by an
alphanumeric (so `_` alone, but also `_` before punctuation); and a
constant exactly when the input starts with a double quote, a lowercase
identifier, or `_` followed by an alphanumeric — the last case yields a
constant, not a variable as the claim stated. -/
theorem c8_parse_term_classes (cc : CharClass) (hcc : ccFacts cc)
    (cs : List Char) (t : Term) (rest : List Char)
    (h : parseTerm cc cs = Except.ok (t, rest)) :
    ((∃ nm, t = Term.var nm) ↔ headUpper cc (skipWs cc cs) = true) ∧
    (t = Term.wildcard ↔ headWild cc (skipWs cc cs) = true) ∧
    ((∃ s, t = Term.const s) ↔
      (headQuote (skipWs cc cs) = true ∨ headLowerConst cc (skipWs cc cs) = true)) := by
  obtain ⟨hdisj, hupU, hlowU, hupQ⟩ := hcc
  rw [parseTerm] at h
  cases hsk : skipWs cc cs with
  | nil =>
      rw [hsk] at h
      exact Except.noConfusion h
  | cons c crest =>
      rw [hsk] at h
      replace h :
          (if (c == '_' && !nextAlnum cc crest) = true then
            Except.ok (Term.wildcard, crest)
          else if (c == '"') = true then
            (match splitAtQuote crest with
             | some (content, rest') => Except.ok (Term.const (String.mk content), rest')
             | none => Except.error PErr.fail)
          else if cc.isUp c = true then
            Except.ok (Term.var (String.mk ((c :: crest).takeWhile (identChar cc))),
              (c :: crest).dropWhile (identChar cc))
          else if (cc.isLow c || c == '_') = true then
            Except.ok (Term.const (String.mk ((c :: crest).takeWhile (identChar cc))),
              (c :: crest).dropWhile (identChar cc))
          else Except.error PErr.fail) = Except.ok (t, rest) := h
      by_cases h1 : (c == '_' && !nextAlnum cc crest) = true
      · rw [if_pos h1] at h
        injection h with hpair
        rw [Prod.mk.injEq] at hpair
        obtain ⟨ht, hrest⟩ := hpair
        subst ht
        have h1' : c = '_' ∧ nextAlnum cc crest = false := by simpa using h1
        have hc : c = '_' := h1'.1
        have halnum : nextAlnum cc crest = false := h1'.2
        subst hc
        refine ⟨?_, ?_, ?_⟩
        · apply iff_of_false
          · rintro ⟨nm, hnm⟩
            exact Term.noConfusion hnm
          · simp [headUpper, hupU]
        · apply iff_of_true rfl
          simp [headWild, halnum]
        · apply iff_of_false
          · rintro ⟨s, hs⟩
            exact Term.noConfusion hs
          · rintro (hq | hl)
            · simp [headQuote] at hq
            · simp [headLowerConst, halnum, hlowU] at hl
      · rw [if_neg h1] at h
        have hwild : headWild cc (c :: crest) = false := by
          simp only [headWild]
          simpa using h1
        by_cases h2 : (c == '"') = true
        · rw [if_pos h2] at h
          cases hsp : splitAtQuote crest with
          | none =>
              rw [hsp] at h
              exact Except.noConfusion h
          | some p =>
              rw [hsp] at h
              obtain ⟨content, rest'⟩ := p
              injection h with hpair
              rw [Prod.mk.injEq] at hpair
              obtain ⟨ht, hrest⟩ := hpair
              subst ht
              have hc : c = '"' := by simpa using h2
              subst hc
              refine ⟨?_, ?_, ?_⟩
              · apply iff_of_false
                · rintro ⟨nm, hnm⟩
                  exact Term.noConfusion hnm
                · simp [headUpper, hupQ]
              · apply iff_of_false
                · intro hw
                  exact Term.noConfusion hw
                · simp [hwild]
              · exact iff_of_true ⟨_, rfl⟩ (Or.inl (by simp [headQuote]))
        · rw [if_neg h2] at h
          have hquote : headQuote (c :: crest) = false := by
            simp only [headQuote]
            simpa using h2
          by_cases h3 : cc.isUp c = true
          · rw [if_pos h3] at h
            injection h with hpair
            rw [Prod.mk.injEq] at hpair
            obtain ⟨ht, hrest⟩ := hpair
            subst ht
            refine ⟨?_, ?_, ?_⟩
            · exact iff_of_true ⟨_, rfl⟩ (by simp [headUpper, h3])
            · apply iff_of_false
              · intro hw
                exact Term.noConfusion hw
              · simp [hwild]
            · apply iff_of_false
              · rintro ⟨s, hs⟩
                exact Term.noConfusion hs
              · rintro (hq | hl)
                · rw [hquote] at hq
                  exact Bool.noConfusion hq
                · have hlow : cc.isLow c = false := hdisj c h3
                  have hund : (c == '_') = false := by
                    cases hcu : (c == '_') with
                    | false => rfl
                    | true =>
                        have hcq : c = '_' := by simpa using hcu
                        rw [hcq] at h3
                        rw [h3] at hupU
                        exact Bool.noConfusion hupU
                  simp [headLowerConst, hlow, hund] at hl
          · rw [if_neg h3] at h
            have hupper : headUpper cc (c :: crest) = false := by
              simp only [headUpper]
              simpa using h3
            by_cases h4 : (cc.isLow c || c == '_') = true
            · rw [if_pos h4] at h
              injection h with hpair
              rw [Prod.mk.injEq] at hpair
              obtain ⟨ht, hrest⟩ := hpair
              subst ht
              refine ⟨?_, ?_, ?_⟩
              · apply iff_of_false
                · rintro ⟨nm, hnm⟩
                  exact Term.noConfusion hnm
                · simp [hupper]
              · apply iff_of_false
                · intro hw
                  exact Term.noConfusion hw
                · simp [hwild]
              · refine iff_of_true ⟨_, rfl⟩ (Or.inr ?_)
                have h4' : cc.isLow c = true ∨ c = '_' := by simpa using h4
                rcases h4' with hlow | hund
                · simp [headLowerConst, hlow]
                · have halnum2 : nextAlnum cc crest = true := by
                    rcases Bool.eq_false_or_eq_true (nextAlnum cc crest) with ht2 | hf
                    · exact ht2
                    · exfalso
                      apply h1
                      rw [hund, hf]
                      rfl
                  simp [headLowerConst, hund, halnum2]
            · rw [if_neg h4] at h
              exact Except.noConfusion h

/-- C8 witness: the ASCII restriction satisfies `ccFacts`, the input `X1`
parses under it as a variable, and the uppercase equivalence holds
there. -/
theorem c8_parse_term_classes_witness :
    (ccFacts asciiCC ∧
      parseTerm asciiCC "X1".data = Except.ok (Term.var "X1", ([] : List Char))) ∧
      ((∃ nm, Term.var "X1" = Term.var nm) ↔
        headUpper asciiCC (skipWs asciiCC "X1".data) = true) := by
  have hfacts : ccFacts asciiCC :=
    ⟨fun ch h => isUpper_not_isLower ch h, by decide, by decide, by decide⟩
  exact ⟨⟨hfacts, rfl⟩,
    (c8_parse_term_classes asciiCC hfacts "X1".data (Term.var "X1") [] rfl).1⟩

/-!
### Concrete counterexamples for C3, C5, C7, C8
-/

/-- C3 counterexample: on the empty engine, `path("1", "1")` succeeds (the
BFS result always contains the start node and the (Const, Const) mode has
no self-exclusion), although no path of length ≥ 1 exists from 1 to 1. -/
theorem c3_counterexample :
    evalPath evEmpty pathAtom11 = [Bindings.empty] ∧
      ∀ k, ¬ stepPath (fun id => neighbors engineCreate id []) 1 1 (k + 1) := by
  refine ⟨by decide, ?_⟩
  intro k h
  obtain ⟨c, hc, -⟩ := h
  simp [neighbors, engineCreate] at hc

/-- C5 counterexample: writing a single node whose `node_type` is `None`
but whose `file` is the one-byte string `[5]` and reading it back, the
reader reports node type `Some [5]` (the absent-type sentinel 0 collides
with the table offset of the file path), differing from the written
record. -/
theorem c5_counterexample :
    nNoType.node_type = none ∧ segGetNodeType segNoType 0 = some [5] := by
  decide

/-- C7 counterexample: intern the empty string and then `[7, 8]`; the
empty string is interned at offset 0, but the distance from its offset to
the next greater offset (here: none, so `data_len = 2`) is 2, not its
byte length 0. -/
theorem c7_counterexample :
    stIndexLookup tEmptyFirst.index [] = some 0 ∧
      nextBoundary tEmptyFirst 0 - 0 = 2 ∧ ([] : Bytes).length = 0 := by
  decide

/-- C8 counterexample: the input `_a` (underscore followed by an
alphanumeric) parses as the constant `_a`, not as a variable as the claim
states.  The run instantiates the classifiers at `asciiCC`, which agrees
with Rust's Unicode classifiers on every character of this input: both
classify `a` as alphanumeric and lowercase and `_` as neither uppercase
nor lowercase. -/
theorem c8_counterexample :
    parseTerm asciiCC "_a".data = Except.ok (Term.const "_a", ([] : List Char)) ∧
      ∀ nm, Term.const "_a" ≠ Term.var nm := by
  refine ⟨rfl, ?_⟩
  intro nm h
  cases h


/-!
### C7 — string table intern/get laws
-/

/-- A hit in the first half of an index survives appending more entries. -/
theorem stIndexLookup_append_left (m m2 : List (Bytes × Nat)) (s : Bytes) (o : Nat)
    (h : stIndexLookup m s = some o) : stIndexLookup (m ++ m2) s = some o := by
  unfold stIndexLookup at *
  obtain ⟨p, hp, hps⟩ : ∃ p, m.find? (fun q => q.1 == s) = some p ∧ p.2 = o := by
    cases hf : m.find? (fun q => q.1 == s) with
    | none => rw [hf] at h; simp at h
    | some p =>
        rw [hf] at h
        simp only [Option.map_some'] at h
        exact ⟨p, rfl, by injection h⟩
  rw [List.find?_append, hp]
  simp [hps]

/-- Interning a fresh string returns its recorded offset. -/
theorem intern_lookup_self (t : StringTable) (s : Bytes) :
    stIndexLookup (t.intern s).2.index s = some (t.intern s).1 := by
  unfold StringTable.intern
  cases hl : stIndexLookup t.index s with
  | some o => simp [hl]
  | none =>
      simp only [hl]
      unfold stIndexLookup at *
      have hf : t.index.find? (fun q => q.1 == s) = none := by
        cases hfc : t.index.find? (fun q => q.1 == s) with
        | none => rfl
        | some p => rw [hfc] at hl; simp at hl
      rw [List.find?_append, hf]
      simp

/-- Interning any string preserves existing index lookups. -/
theorem intern_preserves (t : StringTable) (w s : Bytes) (o : Nat)
    (h : stIndexLookup t.index s = some o) :
    stIndexLookup (t.intern w).2.index s = some o := by
  unfold StringTable.intern
  cases hl : stIndexLookup t.index w with
  | some _ => simpa using h
  | none =>
      simp only [hl]
      exact stIndexLookup_append_left _ _ _ _ h

/-- Interning a list of strings preserves existing index lookups. -/
theorem internList_preserves (ws : List Bytes) :
    ∀ (t : StringTable) (s : Bytes) (o : Nat), stIndexLookup t.index s = some o →
      stIndexLookup (internList t ws).index s = some o := by
  induction ws with
  | nil => intro t s o h; exact h
  | cons w tl ih =>
      intro t s o h
      exact ih (t.intern w).2 s o (intern_preserves t w s o h)

/-- Interning a string already in the index returns the recorded offset. -/
theorem intern_of_lookup (t : StringTable) (s : Bytes) (o : Nat)
    (h : stIndexLookup t.index s = some o) : (t.intern s).1 = o := by
  unfold StringTable.intern
  simp [h]

/-- The empty table satisfies the invariant. -/
theorem STInv_new : STInv StringTable.new := by
  refine ⟨rfl, rfl, ?_, List.nodup_nil⟩
  intro i s o h
  simp [StringTable.new] at h

/-- `intern` preserves the invariant. -/
theorem STInv_intern (t : StringTable) (h : STInv t) (s : Bytes) :
    STInv (t.intern s).2 := by
  obtain ⟨hoff, hdata, hpos, hnodup⟩ := h
  unfold StringTable.intern
  cases hl : stIndexLookup t.index s with
  | some o => exact ⟨hoff, hdata, hpos, hnodup⟩
  | none =>
      simp only [hl]
      have hnotmem : ∀ k ∈ t.index.map Prod.fst, ¬ k = s := by
        intro k hk hks
        obtain ⟨p, hp, hpk⟩ := List.mem_map.mp hk
        have hfind : t.index.find? (fun q => q.1 == s) = none := by
          cases hfc : t.index.find? (fun q => q.1 == s) with
          | none => rfl
          | some q => simp [stIndexLookup, hfc] at hl
        have := List.find?_eq_none.mp hfind p hp
        simp [hpk, hks] at this
      refine ⟨?_, ?_, ?_, ?_⟩
      · simp [hoff]
      · simp [List.map_append, List.flatten_append, hdata]
      · intro i s' o' hent
        by_cases hi : i < t.index.length
        · rw [List.getElem?_append_left hi] at hent
          have := hpos i s' o' hent
          rw [List.take_append_of_le_length (le_of_lt hi)]
          exact this
        · have hig : t.index.length ≤ i := le_of_not_lt hi
          rw [List.getElem?_append_right hig] at hent
          cases hi2 : i - t.index.length with
          | zero =>
              rw [hi2] at hent
              simp only [List.getElem?_cons_zero] at hent
              injection hent with hpair
              have hs' : s' = s := (congrArg Prod.fst hpair).symm
              have ho' : o' = t.data.length := (congrArg Prod.snd hpair).symm
              have hieq : i = t.index.length := by omega
              subst hieq
              rw [List.take_append_of_le_length (le_refl _), List.take_length]
              rw [ho', hdata, List.length_flatten]
          | succ k =>
              rw [hi2] at hent
              simp at hent
      · rw [List.map_append]
        simp only [List.map_cons, List.map_nil]
        rw [List.nodup_append]
        refine ⟨hnodup, List.nodup_singleton s, ?_⟩
        intro k hk hks
        exact hnotmem k hk (by simpa using hks)

/-- `internList` preserves the invariant. -/
theorem STInv_internList (ws : List Bytes) :
    ∀ (t : StringTable), STInv t → STInv (internList t ws) := by
  induction ws with
  | nil => intro t h; exact h
  | cons w tl ih => intro t h; exact ih (t.intern w).2 (STInv_intern t h w)

/-- A successful index lookup exposes a positional entry. -/
theorem lookup_entry (m : List (Bytes × Nat)) (s : Bytes) (o : Nat)
    (h : stIndexLookup m s = some o) : ∃ i : Nat, m[i]? = some (s, o) := by
  unfold stIndexLookup at h
  obtain ⟨p, hp, hps⟩ : ∃ p, m.find? (fun q => q.1 == s) = some p ∧ p.2 = o := by
    cases hf : m.find? (fun q => q.1 == s) with
    | none => rw [hf] at h; simp at h
    | some p =>
        rw [hf] at h
        simp only [Option.map_some'] at h
        exact ⟨p, rfl, by injection h⟩
  have hmem : p ∈ m := List.mem_of_find?_eq_some hp
  have hp1 : p.1 = s := by
    have := List.find?_some hp
    simpa using this
  obtain ⟨i, hi⟩ := List.getElem?_of_mem hmem
  refine ⟨i, ?_⟩
  rw [hi, ← hp1, ← hps]

/-- Prefix sums of a list of naturals are monotone in the prefix length. -/
theorem sum_take_mono (L : List Nat) (j i : Nat) (h : j ≤ i) :
    (L.take j).sum ≤ (L.take i).sum := by
  have h1 : L.take j = (L.take i).take j := by
    rw [List.take_take, Nat.min_eq_left h]
  rw [h1]
  conv_rhs => rw [← List.take_append_drop j (L.take i)]
  rw [List.sum_append]
  exact Nat.le_add_right _ _

/-- In an invariant table, the entry at position `i` with nonempty string
`s` has `nextBoundary` exactly `o + s.length` and `get o = some s`. -/
theorem st_entry_get (t : StringTable) (hinv : STInv t) (i : Nat) (s : Bytes) (o : Nat)
    (hent : t.index[i]? = some (s, o)) (hne : s ≠ []) :
    nextBoundary t o = o + s.length ∧ t.get o = some s := by
  obtain ⟨hoff, hdata, hpos, _⟩ := hinv
  have hi : i < t.index.length := (List.getElem?_eq_some_iff.mp hent).1
  have hieq : t.index[i] = (s, o) := by
    have := List.getElem?_eq_getElem hi
    rw [hent] at this
    exact (Option.some.injEq _ _ ▸ this).symm
  have ho : o = (((t.index.take i).map Prod.fst).map List.length).sum := hpos i s o hent
  -- lengths list
  have hM : ∀ j : Nat, ((t.index.take j).map Prod.fst).map List.length =
      ((t.index.map Prod.fst).map List.length).take j := by
    intro j
    rw [List.map_take, List.map_take]
  -- index decomposition around position i
  have hsplit : t.index = t.index.take i ++ (s, o) :: t.index.drop (i + 1) := by
    conv_lhs => rw [← List.take_append_drop i t.index]
    congr 1
    rw [List.drop_eq_getElem_cons hi, hieq]
  -- data decomposition
  have hdata2 : t.data = ((t.index.take i).map Prod.fst).flatten ++ s ++
      ((t.index.drop (i + 1)).map Prod.fst).flatten := by
    conv_lhs => rw [hdata, hsplit]
    rw [List.map_append, List.flatten_append, List.map_cons, List.flatten_cons,
      List.append_assoc]
  have hAlen : (((t.index.take i).map Prod.fst).flatten).length = o := by
    rw [List.length_flatten, ho]
  have hslen : 1 ≤ s.length := by
    cases s with
    | nil => exact absurd rfl hne
    | cons a l => simp
  -- offsets decomposition
  have hofflist : t.offsets = (t.index.take (i + 1)).map Prod.snd ++
      (t.index.drop (i + 1)).map Prod.snd := by
    rw [hoff, ← List.map_append, List.take_append_drop]
  -- every offset up to position i is at most o
  have hfirst : ∀ x ∈ (t.index.take (i + 1)).map Prod.snd,
      ¬ ((fun y => decide (o < y)) x = true) := by
    intro x hx
    simp only [decide_eq_true_eq, not_lt]
    obtain ⟨p, hp, hpx⟩ := List.mem_map.mp hx
    obtain ⟨j, hj⟩ := List.getElem?_of_mem hp
    have hjlen : j < (t.index.take (i + 1)).length := (List.getElem?_eq_some_iff.mp hj).1
    have hjlt : j < i + 1 := by
      have h1 : (t.index.take (i + 1)).length ≤ i + 1 := by
        rw [List.length_take]
        exact min_le_left _ _
      omega
    have hjent : t.index[j]? = some p := by
      have h0 : (t.index.take (i + 1))[j]? = if j < i + 1 then t.index[j]? else none :=
        List.getElem?_take
      rw [if_pos hjlt] at h0
      rw [← h0, hj]
    have hx2 : p.2 = (((t.index.take j).map Prod.fst).map List.length).sum :=
      hpos j p.1 p.2 (by rw [hjent])
    rw [← hpx, hx2, ho, hM j, hM i]
    exact sum_take_mono _ j i (by omega)
  -- the boundary
  have hnb : nextBoundary t o = o + s.length := by
    cases hpost : t.index.drop (i + 1) with
    | nil =>
        have hBlen : t.data.length = o + s.length := by
          have h2 := congrArg List.length hdata2
          rw [hpost] at h2
          simp only [List.map_nil, List.flatten_nil, List.append_nil,
            List.length_append] at h2
          rw [h2, hAlen]
        unfold nextBoundary
        rw [hofflist, hpost]
        simp only [List.map_nil, List.append_nil]
        rw [List.find?_eq_none.mpr hfirst]
        simpa using hBlen
    | cons q qrest =>
        have hq : t.index[i + 1]? = some q := by
          have := List.getElem?_drop t.index (i + 1) 0
          rw [hpost] at this
          simpa using this.symm
        have hq2 : q.2 = o + s.length := by
          have hq2a : q.2 = (((t.index.take (i + 1)).map Prod.fst).map List.length).sum :=
            hpos (i + 1) q.1 q.2 (by rw [hq])
          rw [hq2a, List.take_succ, hent]
          simp only [Option.toList_some, List.map_append, List.map_cons, List.map_nil,
            List.sum_append, List.sum_cons, List.sum_nil]
          omega
        unfold nextBoundary
        rw [hofflist, hpost, List.map_cons, List.find?_append,
          List.find?_eq_none.mpr hfirst]
        have holt : (decide (o < q.2)) = true := by
          rw [hq2]; simp; omega
        simp only [Option.none_or, List.find?_cons, holt]
        simp [hq2]
  refine ⟨hnb, ?_⟩
  -- the slice
  have hdlen : o + s.length ≤ t.data.length := by
    rw [hdata2]
    simp only [List.length_append, hAlen]
    omega
  show (if o ≥ t.data.length ∨ nextBoundary t o > t.data.length then none
    else some ((t.data.drop o).take (nextBoundary t o - o))) = some s
  rw [hnb, if_neg (by omega)]
  congr 1
  have hdrop : t.data.drop o = s ++ ((t.index.drop (i + 1)).map Prod.fst).flatten := by
    rw [hdata2, List.append_assoc, ← hAlen, List.drop_left]
  rw [hdrop]
  have : o + s.length - o = s.length := by omega
  rw [this, List.take_left]

/-- C7 (amended): interning a string a second time, even after further
strings have been interned, returns the same offset as the first
interning; and in every table built by interning a sequence of strings
into a fresh table, the byte length of each NONEMPTY interned string
equals the distance from its recorded offset to the next greater offset
in the offsets list (or to `data.len()` if none exists), so that `get`
at that offset returns exactly the string.  For the empty string the
length law fails (see `c7_counterexample`). -/
theorem c7_intern_laws (s : Bytes) (t : StringTable) (ws : List Bytes)
    (vs : List Bytes) (s' : Bytes) (o : Nat)
    (hlook : stIndexLookup (internList StringTable.new vs).index s' = some o)
    (hne : s' ≠ []) :
    ((internList (t.intern s).2 ws).intern s).1 = (t.intern s).1 ∧
    nextBoundary (internList StringTable.new vs) o = o + s'.length ∧
    (internList StringTable.new vs).get o = some s' := by
  refine ⟨?_, ?_⟩
  · exact intern_of_lookup _ _ _
      (internList_preserves ws (t.intern s).2 s (t.intern s).1 (intern_lookup_self t s))
  · have hinv : STInv (internList StringTable.new vs) :=
      STInv_internList vs StringTable.new STInv_new
    obtain ⟨i, hent⟩ := lookup_entry _ _ _ hlook
    exact st_entry_get _ hinv i s' o hent hne

/-- C7 witness: in the table interning `[1]` then `[2, 3]`, the string
`[2, 3]` sits at offset 1 with boundary 3, and re-interning `[1]` into
any extension returns its original offset. -/
theorem c7_intern_laws_witness :
    (stIndexLookup tTwo.index [2, 3] = some 1 ∧ ([2, 3] : Bytes) ≠ []) ∧
    ((internList (StringTable.new.intern [1]).2 []).intern [1]).1 =
      (StringTable.new.intern [1]).1 ∧
    nextBoundary tTwo 1 = 1 + ([2, 3] : Bytes).length ∧
    tTwo.get 1 = some [2, 3] := by
  refine ⟨⟨by decide, by decide⟩, ?_⟩
  exact c7_intern_laws [1] StringTable.new [] [[1], [2, 3]] [2, 3] 1 (by decide) (by decide)

/-!
### C5 — segment writer/reader roundtrip
-/

/-- Looking a string up in a one-entry extension of an association list. -/
theorem lookup_append_one (m : List (Bytes × Nat)) (w s : Bytes) (o : Nat) :
    stIndexLookup (m ++ [(w, o)]) s =
      (stIndexLookup m s).or (if w = s then some o else none) := by
  unfold stIndexLookup
  rw [List.find?_append]
  cases hf : m.find? (fun p => p.1 == s) with
  | some p => simp
  | none =>
      by_cases hw : w = s
      · simp [List.find?, hw]
      · have : (((w, o)).1 == s) = false := by simpa using hw
        simp [List.find?, this, hw]

/-- Case equation: interning a cached string. -/
theorem intern_hit (t : StringTable) (s : Bytes) (o : Nat)
    (h : stIndexLookup t.index s = some o) : t.intern s = (o, t) := by
  simp [StringTable.intern, h]

/-- Case equation: interning a fresh string. -/
theorem intern_miss (t : StringTable) (s : Bytes)
    (h : stIndexLookup t.index s = none) :
    t.intern s = (t.data.length,
      { data := t.data ++ s, offsets := t.offsets ++ [t.data.length],
        index := t.index ++ [(s, t.data.length)] }) := by
  simp [StringTable.intern, h]

/-- `intern` only adds the interned string to the key set. -/
theorem intern_keysNE (t : StringTable) (s : Bytes) (hk : keysNE t) (hs : s ≠ []) :
    keysNE (t.intern s).2 := by
  cases hl : stIndexLookup t.index s with
  | some o => rw [intern_hit t s o hl]; exact hk
  | none =>
      rw [intern_miss t s hl]
      intro p hp
      rcases List.mem_append.mp hp with h1 | h2
      · exact hk p h1
      · simp only [List.mem_singleton] at h2
        subst h2
        exact hs

/-- Case equation: `internField` on an absent value. -/
theorem internField_none (st : StringTable) (m : List (Bytes × Nat)) :
    internField st m none = (st, m) := rfl

/-- Case equation: `internField` on a value already in the map. -/
theorem internField_hit (st : StringTable) (m : List (Bytes × Nat)) (s : Bytes)
    (o : Nat) (h : stIndexLookup m s = some o) : internField st m (some s) = (st, m) := by
  simp [internField, h]

/-- Case equation: `internField` on a value missing from the map. -/
theorem internField_miss (st : StringTable) (m : List (Bytes × Nat)) (s : Bytes)
    (h : stIndexLookup m s = none) :
    internField st m (some s) = ((st.intern s).2, m ++ [(s, (st.intern s).1)]) := by
  simp [internField, h]

/-- `internField` preserves positional table index entries. -/
theorem internField_table_mono (st : StringTable) (m : List (Bytes × Nat))
    (v : Option Bytes) (i : Nat) (p : Bytes × Nat) (h : st.index[i]? = some p) :
    (internField st m v).1.index[i]? = some p := by
  cases v with
  | none => rw [internField_none]; exact h
  | some s =>
      cases hl : stIndexLookup m s with
      | some o => rw [internField_hit st m s o hl]; exact h
      | none =>
          rw [internField_miss st m s hl]
          cases hl2 : stIndexLookup st.index s with
          | some o => rw [intern_hit st s o hl2]; exact h
          | none =>
              rw [intern_miss st s hl2]
              have hi : i < st.index.length := (List.getElem?_eq_some_iff.mp h).1
              show (st.index ++ [(s, st.data.length)])[i]? = some p
              rw [List.getElem?_append_left hi]
              exact h

/-- `internField` preserves table index lookups. -/
theorem internField_lookup_mono (st : StringTable) (m : List (Bytes × Nat))
    (v : Option Bytes) (s : Bytes) (o : Nat) (h : stIndexLookup st.index s = some o) :
    stIndexLookup (internField st m v).1.index s = some o := by
  cases v with
  | none => rw [internField_none]; exact h
  | some w =>
      cases hl : stIndexLookup m w with
      | some x => rw [internField_hit st m w x hl]; exact h
      | none => rw [internField_miss st m w hl]; exact intern_preserves st w s o h

/-- `internField` preserves the string-table invariant. -/
theorem internField_STInv (st : StringTable) (m : List (Bytes × Nat))
    (v : Option Bytes) (h : STInv st) : STInv (internField st m v).1 := by
  cases v with
  | none => rw [internField_none]; exact h
  | some s =>
      cases hl : stIndexLookup m s with
      | some o => rw [internField_hit st m s o hl]; exact h
      | none => rw [internField_miss st m s hl]; exact STInv_intern st h s

/-- `internField` keeps the table keys nonempty when the value is. -/
theorem internField_keysNE (st : StringTable) (m : List (Bytes × Nat))
    (v : Option Bytes) (hk : keysNE st) (hv : ∀ s, v = some s → s ≠ []) :
    keysNE (internField st m v).1 := by
  cases v with
  | none => rw [internField_none]; exact hk
  | some s =>
      cases hl : stIndexLookup m s with
      | some o => rw [internField_hit st m s o hl]; exact hk
      | none => rw [internField_miss st m s hl]; exact intern_keysNE st s hk (hv s rfl)

/-- `internField` preserves lookups in the map it extends. -/
theorem internField_map_mono (st : StringTable) (m : List (Bytes × Nat))
    (v : Option Bytes) (s : Bytes) (o : Nat) (h : stIndexLookup m s = some o) :
    stIndexLookup (internField st m v).2 s = some o := by
  cases v with
  | none => rw [internField_none]; exact h
  | some w =>
      cases hl : stIndexLookup m w with
      | some x => rw [internField_hit st m w x hl]; exact h
      | none =>
          rw [internField_miss st m w hl]
          show stIndexLookup (m ++ [(w, (st.intern w).1)]) s = some o
          rw [lookup_append_one, h]
          rfl

/-- `internField` keeps its map sound for the updated table. -/
theorem internField_sound (st : StringTable) (m : List (Bytes × Nat))
    (v : Option Bytes) (hm : mapSound st.index m) :
    mapSound (internField st m v).1.index (internField st m v).2 := by
  intro s o h
  cases v with
  | none =>
      rw [internField_none] at h ⊢
      exact hm s o h
  | some w =>
      cases hl : stIndexLookup m w with
      | some x =>
          rw [internField_hit st m w x hl] at h ⊢
          exact hm s o h
      | none =>
          rw [internField_miss st m w hl] at h ⊢
          replace h : stIndexLookup (m ++ [(w, (st.intern w).1)]) s = some o := h
          show stIndexLookup (st.intern w).2.index s = some o
          rw [lookup_append_one] at h
          cases hms : stIndexLookup m s with
          | some x =>
              rw [hms] at h
              replace h : some x = some o := h
              injection h with hx
              subst hx
              exact intern_preserves st w s x (hm s x hms)
          | none =>
              rw [hms] at h
              replace h : (if w = s then some (st.intern w).1 else none) = some o := h
              by_cases hw : w = s
              · subst hw
                rw [if_pos rfl] at h
                injection h with hx
                subst hx
                exact intern_lookup_self st w
              · rw [if_neg hw] at h
                exact absurd h (by simp)

/-- A map sound for a table stays sound after any `internField` on it. -/
theorem mapSound_step (st : StringTable) (m2 : List (Bytes × Nat))
    (v : Option Bytes) (m : List (Bytes × Nat)) (hm : mapSound st.index m) :
    mapSound (internField st m2 v).1.index m :=
  fun s o h => internField_lookup_mono st m2 v s o (hm s o h)

/-- A present value's map entry survives `internField`. -/
theorem internField_present (st : StringTable) (m : List (Bytes × Nat)) (s : Bytes) :
    ∃ o, stIndexLookup (internField st m (some s)).2 s = some o := by
  cases hl : stIndexLookup m s with
  | some x => rw [internField_hit st m s x hl]; exact ⟨x, hl⟩
  | none =>
      rw [internField_miss st m s hl]
      refine ⟨(st.intern s).1, ?_⟩
      show stIndexLookup (m ++ [(s, (st.intern s).1)]) s = some (st.intern s).1
      rw [lookup_append_one, hl, if_pos rfl]
      rfl

/-- `internNode` preserves the intern-state invariant. -/
theorem internNode_NISInv (acc : NodeInternState) (n : BNodeRec) (h : NISInv acc) :
    NISInv (internNode acc n) := by
  obtain ⟨hst, h1, h2, h3, h4, h5⟩ := h
  refine ⟨?_, ?_, ?_, ?_, ?_, ?_⟩ <;>
    simp only [internNode]
  · exact internField_STInv _ _ _ (internField_STInv _ _ _ (internField_STInv _ _ _
      (internField_STInv _ _ _ (internField_STInv _ _ _ hst))))
  · exact mapSound_step _ _ _ _ (mapSound_step _ _ _ _ (mapSound_step _ _ _ _
      (mapSound_step _ _ _ _ (internField_sound _ _ _ h1))))
  · exact mapSound_step _ _ _ _ (mapSound_step _ _ _ _ (mapSound_step _ _ _ _
      (internField_sound _ _ _ (mapSound_step _ _ _ _ h2))))
  · exact mapSound_step _ _ _ _ (mapSound_step _ _ _ _ (internField_sound _ _ _
      (mapSound_step _ _ _ _ (mapSound_step _ _ _ _ h3))))
  · exact mapSound_step _ _ _ _ (internField_sound _ _ _ (mapSound_step _ _ _ _
      (mapSound_step _ _ _ _ (mapSound_step _ _ _ _ h4))))
  · exact internField_sound _ _ _ (mapSound_step _ _ _ _ (mapSound_step _ _ _ _
      (mapSound_step _ _ _ _ (mapSound_step _ _ _ _ h5))))

/-- `internNode` keeps table keys nonempty for a good record. -/
theorem internNode_keysNE (acc : NodeInternState) (n : BNodeRec)
    (hk : keysNE acc.table) (hg : goodRecB n = true) : keysNE (internNode acc n).table := by
  have hg' := hg
  simp only [goodRecB, Bool.and_eq_true] at hg'
  obtain ⟨⟨⟨⟨ht, hf⟩, hn⟩, hv⟩, hm⟩ := hg'
  have hne : ∀ (v : Option Bytes), neOptB v = true → ∀ s, v = some s → s ≠ [] := by
    intro v hvb s hs
    subst hs
    simp [neOptB] at hvb
    simpa using hvb
  have hver : ∀ s, some n.version = some s → s ≠ [] := by
    intro s hs
    injection hs with hs
    subst hs
    simpa using hv
  simp only [internNode]
  exact internField_keysNE _ _ _ (internField_keysNE _ _ _ (internField_keysNE _ _ _
    (internField_keysNE _ _ _ (internField_keysNE _ _ _ hk (hne _ ht)) (hne _ hf))
    (hne _ hn)) hver) (hne _ hm)

/-- `internNode` preserves positional table index entries. -/
theorem internNode_table_mono (acc : NodeInternState) (n : BNodeRec) (i : Nat)
    (p : Bytes × Nat) (h : acc.table.index[i]? = some p) :
    (internNode acc n).table.index[i]? = some p := by
  simp only [internNode]
  exact internField_table_mono _ _ _ _ _ (internField_table_mono _ _ _ _ _
    (internField_table_mono _ _ _ _ _ (internField_table_mono _ _ _ _ _
    (internField_table_mono _ _ _ _ _ h))))

/-- `internNode` preserves presence of another record's fields. -/
theorem internNode_recPresent_mono (acc : NodeInternState) (n n' : BNodeRec)
    (h : recPresent acc n') : recPresent (internNode acc n) n' := by
  obtain ⟨h1, h2, h3, h4, h5⟩ := h
  refine ⟨?_, ?_, ?_, ?_, ?_⟩ <;> simp only [internNode] <;> intro s hs
  · obtain ⟨o, ho⟩ := h1 s hs
    exact ⟨o, internField_map_mono _ _ _ _ _ ho⟩
  · obtain ⟨o, ho⟩ := h2 s hs
    exact ⟨o, internField_map_mono _ _ _ _ _ ho⟩
  · obtain ⟨o, ho⟩ := h3 s hs
    exact ⟨o, internField_map_mono _ _ _ _ _ ho⟩
  · obtain ⟨o, ho⟩ := h4 s hs
    exact ⟨o, internField_map_mono _ _ _ _ _ ho⟩
  · obtain ⟨o, ho⟩ := h5 s hs
    exact ⟨o, internField_map_mono _ _ _ _ _ ho⟩

/-- After `internNode`, the processed record's own fields are present. -/
theorem internNode_present (acc : NodeInternState) (n : BNodeRec) :
    recPresent (internNode acc n) n := by
  refine ⟨?_, ?_, ?_, ?_, ?_⟩ <;> simp only [internNode] <;> intro s hs
  · rw [hs]
    exact internField_present _ _ _
  · rw [hs]
    exact internField_present _ _ _
  · rw [hs]
    exact internField_present _ _ _
  · injection hs with hs
    subst hs
    exact internField_present _ _ _
  · rw [hs]
    exact internField_present _ _ _

/-- The intern fold preserves the invariant. -/
theorem fold_NISInv (nodes : List BNodeRec) :
    ∀ acc : NodeInternState, NISInv acc → NISInv (nodes.foldl internNode acc) := by
  induction nodes with
  | nil => intro acc h; exact h
  | cons n tl ih => intro acc h; exact ih _ (internNode_NISInv acc n h)

/-- The intern fold keeps table keys nonempty for good records. -/
theorem fold_keysNE (nodes : List BNodeRec) :
    ∀ acc : NodeInternState, keysNE acc.table → (∀ n ∈ nodes, goodRecB n = true) →
      keysNE (nodes.foldl internNode acc).table := by
  induction nodes with
  | nil => intro acc h _; exact h
  | cons n tl ih =>
      intro acc h hg
      exact ih _ (internNode_keysNE acc n h (hg n (List.mem_cons_self n tl)))
        (fun x hx => hg x (List.mem_cons_of_mem n hx))

/-- The intern fold preserves positional table index entries. -/
theorem fold_table_mono (nodes : List BNodeRec) :
    ∀ (acc : NodeInternState) (i : Nat) (p : Bytes × Nat),
      acc.table.index[i]? = some p →
      (nodes.foldl internNode acc).table.index[i]? = some p := by
  induction nodes with
  | nil => intro acc i p h; exact h
  | cons n tl ih => intro acc i p h; exact ih _ i p (internNode_table_mono acc n i p h)

/-- The intern fold preserves field presence. -/
theorem fold_recPresent_mono (nodes : List BNodeRec) :
    ∀ (acc : NodeInternState) (n' : BNodeRec), recPresent acc n' →
      recPresent (nodes.foldl internNode acc) n' := by
  induction nodes with
  | nil => intro acc n' h; exact h
  | cons n tl ih => intro acc n' h; exact ih _ n' (internNode_recPresent_mono acc n n' h)

/-- Every processed record's fields are present after the fold. -/
theorem fold_present (nodes : List BNodeRec) :
    ∀ (acc : NodeInternState) (n : BNodeRec), n ∈ nodes →
      recPresent (nodes.foldl internNode acc) n := by
  induction nodes with
  | nil => intro acc n h; exact absurd h (List.not_mem_nil n)
  | cons m tl ih =>
      intro acc n h
      rcases List.mem_cons.mp h with h1 | h2
      · subst h1
        exact fold_recPresent_mono tl _ n (internNode_present acc n)
      · exact ih _ n h2

/-- Interning a string into the fresh table puts it first at offset 0. -/
theorem internField_new_first (s : Bytes) :
    (internField StringTable.new [] (some s)).1.index[0]? = some (s, 0) := rfl

/-- The first table entry of the intern state of a node list whose head has
a type is that type at offset 0. -/
theorem buildState_first (n0 : BNodeRec) (rest : List BNodeRec) (t0 : Bytes)
    (h : n0.node_type = some t0) :
    (buildNodeInternState (n0 :: rest)).table.index[0]? = some (t0, 0) := by
  unfold buildNodeInternState
  rw [List.foldl_cons]
  apply fold_table_mono
  simp only [internNode]
  apply internField_table_mono
  apply internField_table_mono
  apply internField_table_mono
  apply internField_table_mono
  rw [h]
  exact internField_new_first t0

/-- In an invariant table with nonempty keys, offset 0 belongs to the first
entry only. -/
theorem st_offset_zero (t : StringTable) (hinv : STInv t) (hk : keysNE t)
    (i : Nat) (s : Bytes) (h : t.index[i]? = some (s, 0)) :
    t.index[0]? = some (s, 0) := by
  obtain ⟨-, -, hpos, -⟩ := hinv
  have h0 := hpos i s 0 h
  cases i with
  | zero => exact h
  | succ k =>
      exfalso
      have hi : k + 1 < t.index.length := (List.getElem?_eq_some_iff.mp h).1
      have h0lt : 0 < t.index.length := by omega
      have hent0 : t.index[0]? = some t.index[0] := List.getElem?_eq_getElem h0lt
      have hmem : t.index[0] ∈ t.index.take (k + 1) := by
        have h0' : (t.index.take (k + 1))[0]? = if 0 < k + 1 then t.index[0]? else none :=
          List.getElem?_take
        rw [if_pos (by omega), hent0] at h0'
        exact List.getElem?_mem h0'
      have hlen0 : (t.index[0].1).length ∈
          ((t.index.take (k + 1)).map Prod.fst).map List.length :=
        List.mem_map_of_mem _ (List.mem_map_of_mem _ hmem)
      have hz : (t.index[0].1).length = 0 := List.sum_eq_zero_iff.mp h0.symm _ hlen0
      have hknil : t.index[0].1 = [] := List.eq_nil_of_length_eq_zero hz
      exact hk t.index[0] (List.getElem?_mem hent0) hknil

/-- Nonempty optional byte strings, extracted from the Boolean check. -/
theorem neOptB_spec (v : Option Bytes) (h : neOptB v = true) :
    ∀ s, v = some s → s ≠ [] := by
  intro s hs
  subst hs
  simp only [neOptB] at h
  simp only [Bool.not_eq_true'] at h
  simpa using h

/-- C5 (amended): writing a node list with the segment writer and reading
it back through the segment reader reproduces every field the reader
exposes at every index (id, type, file path, name, version, exported,
deleted, metadata; `replaces` is not persisted), PROVIDED every record
has a present node type, every present string field is nonempty, and no
record has a metadata value equal to the first record's node type.
Without these hypotheses the roundtrip fails (see `c5_counterexample`). -/
theorem c5_roundtrip (nodes : List BNodeRec)
    (hgood : ∀ n ∈ nodes, goodRecB n = true)
    (htype : ∀ n ∈ nodes, n.node_type.isSome = true)
    (hmeta : ∀ n ∈ nodes, ∀ n0, nodes[0]? = some n0 → n.metadata ≠ n0.node_type)
    (idx : Nat) (n : BNodeRec) (hidx : nodes[idx]? = some n) :
    segGetId (writeNodes nodes) idx = some n.id ∧
    segGetNodeType (writeNodes nodes) idx = n.node_type ∧
    segGetFilePath (writeNodes nodes) idx = n.file ∧
    segGetName (writeNodes nodes) idx = n.name ∧
    segGetVersion (writeNodes nodes) idx = some n.version ∧
    segGetExported (writeNodes nodes) idx = some n.exported ∧
    segIsDeleted (writeNodes nodes) idx = n.deleted ∧
    segGetMetadata (writeNodes nodes) idx = n.metadata := by
  have hmem : n ∈ nodes := List.getElem?_mem hidx
  have hinv : NISInv (buildNodeInternState nodes) := by
    unfold buildNodeInternState
    apply fold_NISInv
    refine ⟨STInv_new, ?_, ?_, ?_, ?_, ?_⟩ <;>
      exact fun s o h => by simp [stIndexLookup] at h
  obtain ⟨hSTInv, hsT, hsF, hsN, hsV, hsM⟩ := hinv
  have hkeys : keysNE (buildNodeInternState nodes).table := by
    unfold buildNodeInternState
    apply fold_keysNE
    · intro p hp
      simp [StringTable.new] at hp
    · exact hgood
  have hpres : recPresent (buildNodeInternState nodes) n := by
    unfold buildNodeInternState
    exact fold_present nodes _ n hmem
  obtain ⟨hpT, hpF, hpN, hpV, hpM⟩ := hpres
  obtain ⟨hgT, hgF, hgN, hgV, hgM⟩ : (∀ s, n.node_type = some s → s ≠ []) ∧
      (∀ s, n.file = some s → s ≠ []) ∧ (∀ s, n.name = some s → s ≠ []) ∧
      n.version ≠ [] ∧ (∀ s, n.metadata = some s → s ≠ []) := by
    have hg := hgood n hmem
    simp only [goodRecB, Bool.and_eq_true] at hg
    obtain ⟨⟨⟨⟨ht, hf⟩, hn⟩, hv⟩, hm⟩ := hg
    refine ⟨neOptB_spec _ ht, neOptB_spec _ hf, neOptB_spec _ hn, ?_, neOptB_spec _ hm⟩
    simp only [Bool.not_eq_true'] at hv
    simpa using hv
  have hresolve : ∀ (s : Bytes) (o : Nat), s ≠ [] →
      stIndexLookup (buildNodeInternState nodes).table.index s = some o →
      (buildNodeInternState nodes).table.get o = some s := by
    intro s o hs hl
    obtain ⟨i, hent⟩ := lookup_entry _ _ _ hl
    exact (st_entry_get _ hSTInv i s o hent hs).2
  refine ⟨?_, ?_, ?_, ?_, ?_, ?_, ?_, ?_⟩
  · show (nodes.map (fun n => n.id))[idx]? = some n.id
    rw [List.getElem?_map, hidx]
    rfl
  · obtain ⟨t0v, hnt⟩ : ∃ t, n.node_type = some t :=
      Option.isSome_iff_exists.mp (htype n hmem)
    obtain ⟨o, ho⟩ := hpT t0v hnt
    have hcol : (writeNodes nodes).typeOffsets[idx]? = some o := by
      show (nodes.map _)[idx]? = some o
      rw [List.getElem?_map, hidx]
      simp only [Option.map_some']
      rw [hnt]
      simp only [ho, Option.getD_some]
    show ((writeNodes nodes).typeOffsets[idx]?).bind
      (fun o => (writeNodes nodes).table.get o) = n.node_type
    rw [hcol, hnt]
    simpa using hresolve t0v o (hgT t0v hnt) (hsT t0v o ho)
  · cases hnf : n.file with
    | none =>
        have hcol : (writeNodes nodes).fileIds[idx]? = some 0 := by
          show (nodes.map _)[idx]? = some 0
          rw [List.getElem?_map, hidx]
          simp only [Option.map_some']
          rw [hnf]
        show ((writeNodes nodes).fileIds[idx]?).bind
          (fun fid => if fid = 0 then none else (writeNodes nodes).table.get (fid - 1)) = none
        rw [hcol]
        simp
    | some f =>
        obtain ⟨o, ho⟩ := hpF f hnf
        have hcol : (writeNodes nodes).fileIds[idx]? = some (o + 1) := by
          show (nodes.map _)[idx]? = some (o + 1)
          rw [List.getElem?_map, hidx]
          simp only [Option.map_some']
          rw [hnf]
          simp only [ho]
        show ((writeNodes nodes).fileIds[idx]?).bind
          (fun fid => if fid = 0 then none else (writeNodes nodes).table.get (fid - 1)) = some f
        rw [hcol]
        show (if o + 1 = 0 then none else (writeNodes nodes).table.get (o + 1 - 1)) = some f
        rw [if_neg (Nat.succ_ne_zero o)]
        exact hresolve f o (hgF f hnf) (hsF f o ho)
  · cases hnn : n.name with
    | none =>
        have hcol : (writeNodes nodes).nameOffsets[idx]? = some 0 := by
          show (nodes.map _)[idx]? = some 0
          rw [List.getElem?_map, hidx]
          simp only [Option.map_some']
          rw [hnn]
        show ((writeNodes nodes).nameOffsets[idx]?).bind
          (fun o => if o = 0 then none else (writeNodes nodes).table.get (o - 1)) = none
        rw [hcol]
        simp
    | some nm =>
        obtain ⟨o, ho⟩ := hpN nm hnn
        have hcol : (writeNodes nodes).nameOffsets[idx]? = some (o + 1) := by
          show (nodes.map _)[idx]? = some (o + 1)
          rw [List.getElem?_map, hidx]
          simp only [Option.map_some']
          rw [hnn]
          simp only [ho]
        show ((writeNodes nodes).nameOffsets[idx]?).bind
          (fun o => if o = 0 then none else (writeNodes nodes).table.get (o - 1)) = some nm
        rw [hcol]
        show (if o + 1 = 0 then none else (writeNodes nodes).table.get (o + 1 - 1)) = some nm
        rw [if_neg (Nat.succ_ne_zero o)]
        exact hresolve nm o (hgN nm hnn) (hsN nm o ho)
  · obtain ⟨o, ho⟩ := hpV n.version rfl
    have hcol : (writeNodes nodes).versionOffsets[idx]? = some o := by
      show (nodes.map _)[idx]? = some o
      rw [List.getElem?_map, hidx]
      simp only [Option.map_some', ho, Option.getD_some]
    show ((writeNodes nodes).versionOffsets[idx]?).bind
      (fun o => (writeNodes nodes).table.get o) = some n.version
    rw [hcol]
    simpa using hresolve n.version o hgV (hsV n.version o ho)
  · show (nodes.map (fun n => n.exported))[idx]? = some n.exported
    rw [List.getElem?_map, hidx]
    rfl
  · show ((nodes.map (fun n => n.deleted))[idx]?).getD false = n.deleted
    rw [List.getElem?_map, hidx]
    rfl
  · cases hnm : n.metadata with
    | none =>
        have hcol : (writeNodes nodes).metadataOffsets[idx]? = some 0 := by
          show (nodes.map _)[idx]? = some 0
          rw [List.getElem?_map, hidx]
          simp only [Option.map_some']
          rw [hnm]
        show ((writeNodes nodes).metadataOffsets[idx]?).bind
          (fun o => if o = 0 then none else (writeNodes nodes).table.get o) = none
        rw [hcol]
        simp
    | some m =>
        obtain ⟨o, ho⟩ := hpM m hnm
        have hcol : (writeNodes nodes).metadataOffsets[idx]? = some o := by
          show (nodes.map _)[idx]? = some o
          rw [List.getElem?_map, hidx]
          simp only [Option.map_some']
          rw [hnm]
          simp only [ho, Option.getD_some]
        have htab : stIndexLookup (buildNodeInternState nodes).table.index m = some o :=
          hsM m o ho
        have hone : o ≠ 0 := by
          intro ho0
          subst ho0
          obtain ⟨n0, rest, hcons⟩ : ∃ n0 rest, nodes = n0 :: rest := by
            cases nodes with
            | nil => simp at hidx
            | cons a l => exact ⟨a, l, rfl⟩
          have hn0 : nodes[0]? = some n0 := by rw [hcons]; exact List.getElem?_cons_zero
          obtain ⟨t0v, hnt0⟩ : ∃ t, n0.node_type = some t :=
            Option.isSome_iff_exists.mp (htype n0 (by rw [hcons]; exact List.mem_cons_self _ _))
          obtain ⟨i, hent⟩ := lookup_entry _ _ _ htab
          have hzero := st_offset_zero _ hSTInv hkeys i m hent
          have hfirst : (buildNodeInternState nodes).table.index[0]? = some (t0v, 0) := by
            rw [hcons]
            exact buildState_first n0 rest t0v hnt0
          rw [hfirst] at hzero
          injection hzero with hpair
          have hm0 : m = t0v := (congrArg Prod.fst hpair).symm
          apply hmeta n hmem n0 hn0
          rw [hnm, hnt0, hm0]
        show ((writeNodes nodes).metadataOffsets[idx]?).bind
          (fun o => if o = 0 then none else (writeNodes nodes).table.get o) = some m
        rw [hcol]
        show (if o = 0 then none else (writeNodes nodes).table.get o) = some m
        rw [if_neg hone]
        exact hresolve m o (hgM m hnm) htab

/-- C5 witness: the roundtrip hypotheses hold for the one-record list
`[nAllFields]`, whose written segment reads every field back. -/
theorem c5_roundtrip_witness :
    segGetId segAllFields 0 = some 11 ∧
    segGetNodeType segAllFields 0 = some [1] ∧
    segGetFilePath segAllFields 0 = some [2] ∧
    segGetName segAllFields 0 = some [3] ∧
    segGetVersion segAllFields 0 = some [4] ∧
    segGetExported segAllFields 0 = some true ∧
    segIsDeleted segAllFields 0 = false ∧
    segGetMetadata segAllFields 0 = some [6] := by
  have hmeta : ∀ n ∈ [nAllFields], ∀ n0, [nAllFields][0]? = some n0 →
      n.metadata ≠ n0.node_type := by
    intro n hn n0 h0
    have hn' : n = nAllFields := List.mem_singleton.mp hn
    have h0' : n0 = nAllFields := by
      have : some nAllFields = some n0 := h0
      injection this with h
      exact h.symm
    subst hn'
    subst h0'
    decide
  exact c5_roundtrip [nAllFields] (by decide) (by decide) hmeta 0 nAllFields (by decide)

end RFDB
